import Mathlib

/-!
Verification of the Sudoku multiplayer backend.

Part 1 embeds the puzzle generator of `game.py` (`SudokuGenerator`):
boards are functions `Fin 9 → Fin 9 → ℕ` (`0` = empty cell), and the
methods `is_valid`, `find_empty`, `solve`, `count_solutions` and
`get_puzzle` are translated one-to-one.  Part 2 embeds the socket.io
session handlers of `main.py`.
-/

set_option maxHeartbeats 1000000
set_option maxRecDepth 100000

abbrev Cell : Type := Fin 9 × Fin 9

abbrev Board : Type := Fin 9 → Fin 9 → ℕ

/-- Writing a value into one cell of a 9×9 matrix (`board[r][c] = v` in
Python); generic in the entry type so it also serves the notes board of
`main.py`. -/
def setCell {α : Type} (f : Fin 9 → Fin 9 → α) (p : Cell) (v : α) : Fin 9 → Fin 9 → α :=
  fun i j => if (i, j) = p then v else f i j

theorem setCell_same {α : Type} (f : Fin 9 → Fin 9 → α) (p : Cell) (v : α) :
    setCell f p v p.1 p.2 = v := by
  simp [setCell]

theorem setCell_other {α : Type} (f : Fin 9 → Fin 9 → α) (p q : Cell) (v : α)
    (h : q ≠ p) : setCell f p v q.1 q.2 = f q.1 q.2 := by
  simp only [setCell]
  rw [if_neg]
  intro hc
  exact h (by cases p; cases q; simp_all)

/-- Two cells lie in the same 3×3 box; `game.py` computes the box of a
cell as `(pos[0] // 3, pos[1] // 3)` and scans the nine cells of that
box. -/
def sameBox (p q : Cell) : Prop :=
  p.1.val / 3 = q.1.val / 3 ∧ p.2.val / 3 = q.2.val / 3

instance (p q : Cell) : Decidable (sameBox p q) := by
  unfold sameBox; infer_instance

theorem sameBox_symm {p q : Cell} (h : sameBox p q) : sameBox q p :=
  ⟨h.1.symm, h.2.symm⟩

/-- `SudokuGenerator.is_valid(board, num, pos)`: `num` may be placed at
`pos` because no *other* cell of the same row, column or 3×3 box already
holds `num`.  The three conjuncts are the three loops of the source
(`board[pos[0]][i] == num and pos[1] != i`, the column loop, and the box
double loop), each written contrapositively. -/
def is_valid (board : Board) (num : ℕ) (pos : Cell) : Prop :=
  (∀ i : Fin 9, board pos.1 i = num → pos.2 = i) ∧
  (∀ i : Fin 9, board i pos.2 = num → pos.1 = i) ∧
  (∀ q : Cell, sameBox q pos → board q.1 q.2 = num → q = pos)

instance (board : Board) (num : ℕ) (pos : Cell) : Decidable (is_valid board num pos) := by
  unfold is_valid; infer_instance

/-- The 81 cells in row-major order, as scanned by the nested
`for i / for j` loops of `find_empty` and by the cell list comprehension
of `get_puzzle` and `on_hint`. -/
def cellsRM : List Cell :=
  (List.finRange 9).flatMap fun i => (List.finRange 9).map fun j => (i, j)

theorem mem_cellsRM (p : Cell) : p ∈ cellsRM := by
  cases p with
  | mk i j =>
    simp [cellsRM, List.mem_flatMap]

/-- `SudokuGenerator.find_empty(board)`: the first cell holding `0` in
row-major order, or `None`. -/
def find_empty (board : Board) : Option Cell :=
  cellsRM.find? fun p => board p.1 p.2 == 0

theorem find_empty_some {board : Board} {pos : Cell}
    (h : find_empty board = some pos) : board pos.1 pos.2 = 0 := by
  have := List.find?_some h
  simpa using this

theorem find_empty_none {board : Board}
    (h : find_empty board = none) : ∀ p : Cell, board p.1 p.2 ≠ 0 := by
  intro p
  have := List.find?_eq_none.mp h p (mem_cellsRM p)
  simpa using this

theorem find_empty_isSome {board : Board} {p : Cell}
    (h : board p.1 p.2 = 0) : (find_empty board).isSome := by
  cases hfe : find_empty board with
  | none => exact absurd h (find_empty_none hfe p)
  | some q => simp

/-- Number of empty cells of a board; the termination measure of the
recursive `solve` and `count_solutions`. -/
def numEmpty (board : Board) : ℕ :=
  (Finset.univ.filter fun p : Cell => board p.1 p.2 = 0).card

theorem numEmpty_setCell_lt {board : Board} {pos : Cell} {v : ℕ}
    (h0 : board pos.1 pos.2 = 0) (hv : v ≠ 0) :
    numEmpty (setCell board pos v) < numEmpty board := by
  unfold numEmpty
  apply Finset.card_lt_card
  constructor
  · intro q hq
    simp only [Finset.mem_filter, Finset.mem_univ, true_and] at hq ⊢
    by_cases hqp : q = pos
    · subst hqp
      rw [setCell_same] at hq
      exact absurd hq hv
    · rwa [setCell_other _ _ _ _ hqp] at hq
  · intro hsub
    have hpos : pos ∈ Finset.univ.filter fun p : Cell => board p.1 p.2 = 0 := by
      simp [h0]
    have := hsub hpos
    simp only [Finset.mem_filter, Finset.mem_univ, true_and] at this
    rw [setCell_same] at this
    exact hv this

theorem numEmpty_eq_zero_iff {board : Board} :
    numEmpty board = 0 ↔ ∀ p : Cell, board p.1 p.2 ≠ 0 := by
  unfold numEmpty
  rw [Finset.card_eq_zero, Finset.filter_eq_empty_iff]
  constructor
  · intro h p
    exact h (Finset.mem_univ p)
  · intro h p _
    exact h p

theorem find_empty_none_iff {board : Board} :
    find_empty board = none ↔ ∀ p : Cell, board p.1 p.2 ≠ 0 := by
  constructor
  · exact find_empty_none
  · intro h
    cases hfe : find_empty board with
    | none => rfl
    | some q => exact absurd (find_empty_some hfe) (h q)

/-- `list(range(1, 10))`: the digit candidates tried by `solve` and
`count_solutions`. -/
def nums19 : List ℕ := [1, 2, 3, 4, 5, 6, 7, 8, 9]

theorem mem_nums19 {n : ℕ} : n ∈ nums19 ↔ 1 ≤ n ∧ n ≤ 9 := by
  simp [nums19]
  omega

/-- The result of `random.shuffle(nums)` on `nums = list(range(1, 10))`:
some permutation of the digits 1..9. -/
def ShuffledNums : Type := {l : List ℕ // l.Perm nums19}

/-- `SudokuGenerator.solve(board)` with the randomness made explicit:
`σ` supplies, for the board at each recursive call, the shuffled digit
order that `random.shuffle` produced there.  The function returns the
solved board (the in-place mutations of the Python code on success)
instead of `True`, and `none` instead of `False`. -/
def solve (σ : Board → ShuffledNums) (board : Board) : Option Board :=
  match hfe : find_empty board with
  | none => some board
  | some pos =>
    (σ board).val.attach.findSome? fun n =>
      if is_valid board n.val pos then solve σ (setCell board pos n.val) else none
termination_by numEmpty board
decreasing_by
  have h0 : board pos.1 pos.2 = 0 := find_empty_some hfe
  have hmem : n.val ∈ nums19 := (σ board).property.mem_iff.mp n.property
  have h1 : 1 ≤ n.val := (mem_nums19.mp hmem).1
  exact numEmpty_setCell_lt h0 (by omega)

/-- The accumulator loop of `count_solutions`: the pairs are
`(is_valid(...), count_solutions(board with num placed))` for each `num`
in `range(1, 10)`; the running `count` returns early as soon as it
exceeds `1` (`if count > 1: return count`). -/
def csFold : List (Bool × ℕ) → ℕ → ℕ
  | [], count => count
  | (v, k) :: rest, count =>
    if v then
      let c := count + k
      if 1 < c then c else csFold rest c
    else csFold rest count

/-- `SudokuGenerator.count_solutions(board)`: backtracking count of the
completions of `board`, short-circuited as soon as the count exceeds 1.
The recursive results for the nine candidate digits are combined by
`csFold` exactly as the source loop does. -/
def count_solutions (board : Board) : ℕ :=
  match hfe : find_empty board with
  | none => 1
  | some pos =>
    csFold
      (nums19.attach.map fun n =>
        (decide (is_valid board n.val pos), count_solutions (setCell board pos n.val))) 0
termination_by numEmpty board
decreasing_by
  have h0 : board pos.1 pos.2 = 0 := find_empty_some hfe
  have h1 : 1 ≤ n.val := (mem_nums19.mp n.property).1
  exact numEmpty_setCell_lt h0 (by omega)

theorem solve_none {σ : Board → ShuffledNums} {board : Board}
    (h : find_empty board = none) : solve σ board = some board := by
  rw [solve]
  split
  · rfl
  · rename_i hfe
    rw [h] at hfe
    exact absurd hfe (by simp)

theorem solve_some {σ : Board → ShuffledNums} {board : Board} {pos : Cell}
    (h : find_empty board = some pos) :
    solve σ board = (σ board).val.attach.findSome? fun n =>
      if is_valid board n.val pos then solve σ (setCell board pos n.val) else none := by
  rw [solve]
  split
  · rename_i hfe
    rw [h] at hfe
    exact absurd hfe (by simp)
  · rename_i pos2 hfe
    rw [h] at hfe
    injection hfe with hfe
    subst hfe
    rfl

theorem count_solutions_none {board : Board} (h : find_empty board = none) :
    count_solutions board = 1 := by
  rw [count_solutions]
  split
  · rfl
  · rename_i hfe
    rw [h] at hfe
    exact absurd hfe (by simp)

theorem count_solutions_some {board : Board} {pos : Cell} (h : find_empty board = some pos) :
    count_solutions board =
      csFold (nums19.map fun n =>
        (decide (is_valid board n pos), count_solutions (setCell board pos n))) 0 := by
  rw [count_solutions]
  split
  · rename_i hfe
    rw [h] at hfe
    exact absurd hfe (by simp)
  · rename_i pos2 hfe
    rw [h] at hfe
    injection hfe with hfe
    subst hfe
    exact congrArg (fun x => csFold x 0)
      (List.attach_map_coe nums19
        (fun n => (decide (is_valid board n pos), count_solutions (setCell board pos n))))

/-- The exact (un-capped) total of the branch results recorded in a
`csFold` input list. -/
def csTot : List (Bool × ℕ) → ℕ
  | [] => 0
  | (v, k) :: rest => (if v then k else 0) + csTot rest

theorem csFold_eq_of_le : ∀ (l : List (Bool × ℕ)) (count : ℕ),
    count + csTot l ≤ 1 → csFold l count = count + csTot l := by
  intro l
  induction l with
  | nil => intro count _; simp [csFold, csTot]
  | cons hd rest ih =>
    intro count h
    obtain ⟨v, k⟩ := hd
    cases v with
    | true =>
      simp only [csFold, csTot, if_true] at h ⊢
      have hc : ¬ 1 < count + k := by omega
      rw [if_neg hc, ih (count + k) (by omega)]
      omega
    | false =>
      simp only [csFold, csTot, Bool.false_eq_true, if_false] at h ⊢
      rw [ih count (by omega)]
      omega

theorem csFold_ge_two : ∀ (l : List (Bool × ℕ)) (count : ℕ),
    2 ≤ count + csTot l → 2 ≤ csFold l count := by
  intro l
  induction l with
  | nil => intro count h; simp only [csTot] at h; simpa [csFold] using h
  | cons hd rest ih =>
    intro count h
    obtain ⟨v, k⟩ := hd
    cases v with
    | true =>
      simp only [csFold, csTot, if_true] at h ⊢
      by_cases hc : 1 < count + k
      · rw [if_pos hc]; omega
      · rw [if_neg hc]
        exact ih (count + k) (by omega)
    | false =>
      simp only [csFold, csTot, Bool.false_eq_true, if_false] at h ⊢
      exact ih count (by omega)

theorem csFold_eq_one_iff {l : List (Bool × ℕ)} : csFold l 0 = 1 ↔ csTot l = 1 := by
  constructor
  · intro h
    by_cases hle : csTot l ≤ 1
    · have := csFold_eq_of_le l 0 (by omega)
      omega
    · have := csFold_ge_two l 0 (by omega)
      omega
  · intro h
    have := csFold_eq_of_le l 0 (by omega)
    omega

theorem csFold_eq_zero_iff {l : List (Bool × ℕ)} : csFold l 0 = 0 ↔ csTot l = 0 := by
  constructor
  · intro h
    by_cases hle : csTot l ≤ 1
    · have := csFold_eq_of_le l 0 (by omega)
      omega
    · have := csFold_ge_two l 0 (by omega)
      omega
  · intro h
    have := csFold_eq_of_le l 0 (by omega)
    omega

theorem csTot_map {α : Type} (l : List α) (P : α → Prop) [DecidablePred P] (F : α → ℕ) :
    csTot (l.map fun n => (decide (P n), F n)) =
      (l.map fun n => if P n then F n else 0).sum := by
  induction l with
  | nil => simp [csTot]
  | cons a l ih =>
    simp only [List.map_cons, csTot, List.sum_cons, ih]
    by_cases h : P a <;> simp [h]

/-- The exact number of solutions found below the first empty cell
`pos`: the sum, over the digits valid at `pos`, of the recursive counts. -/
def branchSum (board : Board) (pos : Cell) : ℕ :=
  (nums19.map fun n =>
    if is_valid board n pos then count_solutions (setCell board pos n) else 0).sum

theorem cs_eq_one_iff {board : Board} {pos : Cell} (h : find_empty board = some pos) :
    count_solutions board = 1 ↔ branchSum board pos = 1 := by
  rw [count_solutions_some h, csFold_eq_one_iff,
    csTot_map nums19 (fun n => is_valid board n pos)
      (fun n => count_solutions (setCell board pos n))]
  rfl

theorem cs_eq_zero_iff {board : Board} {pos : Cell} (h : find_empty board = some pos) :
    count_solutions board = 0 ↔ branchSum board pos = 0 := by
  rw [count_solutions_some h, csFold_eq_zero_iff,
    csTot_map nums19 (fun n => is_valid board n pos)
      (fun n => count_solutions (setCell board pos n))]
  rfl

/-- Every cell is either empty or holds a digit 1..9. -/
def boundedVals (board : Board) : Prop :=
  ∀ p : Cell, board p.1 p.2 = 0 ∨ (1 ≤ board p.1 p.2 ∧ board p.1 p.2 ≤ 9)

instance (board : Board) : Decidable (boundedVals board) := by
  unfold boundedVals; infer_instance

/-- No two distinct cells of a row, column or 3×3 box hold the same
non-zero value: every filled cell passes the generator's own
`is_valid` check at its position. -/
def validGrid (g : Board) : Prop :=
  ∀ p : Cell, g p.1 p.2 ≠ 0 → is_valid g (g p.1 p.2) p

instance (g : Board) : Decidable (validGrid g) := by
  unfold validGrid; infer_instance

/-- `g` is a full valid grid extending `b`: the solutions of `b` that
the backtracking counter enumerates. -/
def isCompletion (b g : Board) : Prop :=
  validGrid g ∧ (∀ p : Cell, 1 ≤ g p.1 p.2 ∧ g p.1 p.2 ≤ 9) ∧
    (∀ p : Cell, b p.1 p.2 ≠ 0 → g p.1 p.2 = b p.1 p.2)

instance (b g : Board) : Decidable (isCompletion b g) := by
  unfold isCompletion; infer_instance

theorem boundedVals_setCell {b : Board} {pos : Cell} {n : ℕ}
    (hb : boundedVals b) (h1 : 1 ≤ n) (h9 : n ≤ 9) :
    boundedVals (setCell b pos n) := by
  intro p
  by_cases hp : p = pos
  · subst hp
    rw [setCell_same]
    right
    exact ⟨h1, h9⟩
  · rw [setCell_other _ _ _ _ hp]
    exact hb p

theorem setCell_apply (b : Fin 9 → Fin 9 → ℕ) (pr pc i j : Fin 9) (v : ℕ) :
    setCell b (pr, pc) v i j = if i = pr ∧ j = pc then v else b i j := by
  simp only [setCell, Prod.mk.injEq]

theorem validGrid_setCell {b : Board} {pr pc : Fin 9} {n : ℕ}
    (hb : validGrid b) (h0 : b pr pc = 0) (hv : is_valid b n (pr, pc)) (hn : n ≠ 0) :
    validGrid (setCell b (pr, pc) n) := by
  have happ : ∀ i j, setCell b (pr, pc) n i j = if i = pr ∧ j = pc then n else b i j :=
    fun i j => setCell_apply b pr pc i j n
  intro q hq
  obtain ⟨qr, qc⟩ := q
  dsimp only at hq ⊢
  by_cases hqq : qr = pr ∧ qc = pc
  · obtain ⟨h1, h2⟩ := hqq
    subst h1
    subst h2
    rw [show setCell b (qr, qc) n qr qc = n from by rw [happ qr qc]; exact if_pos ⟨rfl, rfl⟩]
    refine ⟨?_, ?_, ?_⟩
    · intro i hi
      dsimp only at hi
      by_cases hic : i = qc
      · exact hic.symm
      · rw [happ qr i, if_neg (fun hcon => hic hcon.2)] at hi
        exact hv.1 i hi
    · intro i hi
      dsimp only at hi
      by_cases hic : i = qr
      · exact hic.symm
      · rw [happ i qc, if_neg (fun hcon => hic hcon.1)] at hi
        exact hv.2.1 i hi
    · intro x hsb hx
      by_cases hxp : x = (qr, qc)
      · exact hxp
      · rw [happ x.1 x.2, if_neg (fun hcon => hxp (Prod.ext_iff.mpr hcon))] at hx
        exact hv.2.2 x hsb hx
  · rw [show setCell b (pr, pc) n qr qc = b qr qc from by
      rw [happ qr qc]; exact if_neg hqq] at hq ⊢
    have hbq := hb (qr, qc) hq
    dsimp only at hbq
    refine ⟨?_, ?_, ?_⟩
    · intro i hi
      dsimp only at hi ⊢
      by_cases hip : qr = pr ∧ i = pc
      · obtain ⟨hqr, hic⟩ := hip
        rw [happ qr i, if_pos ⟨hqr, hic⟩] at hi
        exfalso
        have hbv : b pr qc = n := by rw [← hqr]; exact hi.symm
        have hpc : pc = qc := hv.1 qc hbv
        exact hqq ⟨hqr, hpc.symm⟩
      · rw [happ qr i, if_neg hip] at hi
        exact hbq.1 i hi
    · intro i hi
      dsimp only at hi ⊢
      by_cases hip : i = pr ∧ qc = pc
      · obtain ⟨hir, hqc⟩ := hip
        rw [happ i qc, if_pos ⟨hir, hqc⟩] at hi
        exfalso
        have hbv : b qr pc = n := by rw [← hqc]; exact hi.symm
        have hpr : pr = qr := hv.2.1 qr hbv
        exact hqq ⟨hpr.symm, hqc⟩
      · rw [happ i qc, if_neg hip] at hi
        exact hbq.2.1 i hi
    · intro x hsb hx
      by_cases hxp : x = (pr, pc)
      · rw [hxp, happ pr pc, if_pos ⟨rfl, rfl⟩] at hx
        exfalso
        have hsb2 : sameBox (qr, qc) (pr, pc) := sameBox_symm (hxp ▸ hsb)
        have hqp := hv.2.2 (qr, qc) hsb2 hx.symm
        exact hqq ⟨congrArg Prod.fst hqp, congrArg Prod.snd hqp⟩
      · rw [happ x.1 x.2, if_neg (fun hcon => hxp (Prod.ext_iff.mpr hcon))] at hx
        exact hbq.2.2 x hsb hx

theorem validGrid_mono {g b : Board} (hg : validGrid g)
    (hsub : ∀ p : Cell, b p.1 p.2 ≠ 0 → b p.1 p.2 = g p.1 p.2) : validGrid b := by
  intro q hq
  have hqval : b q.1 q.2 = g q.1 q.2 := hsub q hq
  have hgq := hg q (by rw [← hqval]; exact hq)
  refine ⟨?_, ?_, ?_⟩
  · intro i hi
    have hne : b q.1 i ≠ 0 := by rw [hi]; exact hq
    have : g q.1 i = g q.1 q.2 := by
      rw [← hsub (q.1, i) hne, ← hqval]
      exact hi
    exact hgq.1 i this
  · intro i hi
    have hne : b i q.2 ≠ 0 := by rw [hi]; exact hq
    have : g i q.2 = g q.1 q.2 := by
      rw [← hsub (i, q.2) hne, ← hqval]
      exact hi
    exact hgq.2.1 i this
  · intro x hsb hx
    have hne : b x.1 x.2 ≠ 0 := by rw [hx]; exact hq
    have : g x.1 x.2 = g q.1 q.2 := by
      rw [← hsub x hne, ← hqval]
      exact hx
    exact hgq.2.2 x hsb this

theorem completion_step {b : Board} {pos : Cell} (hfe : find_empty b = some pos) (g : Board) :
    isCompletion b g ↔
      ∃ n ∈ nums19, is_valid b n pos ∧ isCompletion (setCell b pos n) g := by
  have h0 : b pos.1 pos.2 = 0 := find_empty_some hfe
  constructor
  · rintro ⟨hg, hbound, hext⟩
    refine ⟨g pos.1 pos.2, mem_nums19.mpr (hbound pos), ?_, hg, hbound, ?_⟩
    · have hgn : g pos.1 pos.2 ≠ 0 := by have := (hbound pos).1; omega
      have hgv := hg pos hgn
      refine ⟨?_, ?_, ?_⟩
      · intro i hi
        have hne : b pos.1 i ≠ 0 := by rw [hi]; exact hgn
        exact hgv.1 i (by rw [hext (pos.1, i) hne]; exact hi)
      · intro i hi
        have hne : b i pos.2 ≠ 0 := by rw [hi]; exact hgn
        exact hgv.2.1 i (by rw [hext (i, pos.2) hne]; exact hi)
      · intro x hsb hx
        have hne : b x.1 x.2 ≠ 0 := by rw [hx]; exact hgn
        exact hgv.2.2 x hsb (by rw [hext x hne]; exact hx)
    · intro p hp
      by_cases hpp : p = pos
      · subst hpp
        rw [setCell_same]
      · rw [setCell_other _ _ _ _ hpp] at hp ⊢
        exact hext p hp
  · rintro ⟨n, hmem, hv, hg, hbound, hext⟩
    refine ⟨hg, hbound, ?_⟩
    intro p hp
    have hpp : p ≠ pos := by
      intro hc
      subst hc
      exact hp h0
    have := hext p (by rw [setCell_other _ _ _ _ hpp]; exact hp)
    rwa [setCell_other _ _ _ _ hpp] at this

theorem map_sum_eq_zero {α : Type} {l : List α} {f : α → ℕ}
    (h : (l.map f).sum = 0) : ∀ a ∈ l, f a = 0 := by
  intro a ha
  exact List.sum_eq_zero_iff.mp h (f a) (List.mem_map_of_mem f ha)

theorem map_sum_eq_one {α : Type} {l : List α} {f : α → ℕ}
    (h : (l.map f).sum = 1) :
    ∃ a ∈ l, f a = 1 ∧ ∀ x ∈ l, x ≠ a → f x = 0 := by
  induction l with
  | nil => simp at h
  | cons a l ih =>
    rw [List.map_cons, List.sum_cons] at h
    by_cases hfa : f a = 0
    · rw [hfa, Nat.zero_add] at h
      obtain ⟨a2, hmem, h1, hz⟩ := ih h
      refine ⟨a2, List.mem_cons_of_mem a hmem, h1, ?_⟩
      intro x hx hne
      rcases List.mem_cons.mp hx with hxa | hxl
      · rw [hxa]; exact hfa
      · exact hz x hxl hne
    · have hfa1 : f a = 1 ∧ (l.map f).sum = 0 := by omega
      refine ⟨a, List.mem_cons_self a l, hfa1.1, ?_⟩
      intro x hx hne
      rcases List.mem_cons.mp hx with hxa | hxl
      · exact absurd hxa hne
      · exact map_sum_eq_zero hfa1.2 x hxl

theorem board_ext {b g : Board} (h : ∀ p : Cell, b p.1 p.2 = g p.1 p.2) : b = g := by
  funext i j
  exact h (i, j)

theorem cs_zero_no_completion :
    ∀ (N : ℕ) (b : Board), numEmpty b ≤ N → count_solutions b = 0 →
      ∀ g, ¬ isCompletion b g := by
  intro N
  induction N with
  | zero =>
    intro b hN hcs g _
    have hfull : ∀ p : Cell, b p.1 p.2 ≠ 0 :=
      numEmpty_eq_zero_iff.mp (Nat.le_zero.mp hN)
    rw [count_solutions_none (find_empty_none_iff.mpr hfull)] at hcs
    exact absurd hcs one_ne_zero
  | succ N ih =>
    intro b hN hcs g hg
    cases hfe : find_empty b with
    | none =>
      rw [count_solutions_none hfe] at hcs
      exact absurd hcs one_ne_zero
    | some pos =>
      have hsum := (cs_eq_zero_iff hfe).mp hcs
      obtain ⟨n, hmem, hv, hcomp⟩ := (completion_step hfe g).mp hg
      have hterm := map_sum_eq_zero hsum n hmem
      rw [if_pos hv] at hterm
      have hn1 : 1 ≤ n := (mem_nums19.mp hmem).1
      have hlt : numEmpty (setCell b pos n) ≤ N := by
        have := numEmpty_setCell_lt (find_empty_some hfe) (by omega : n ≠ 0)
        omega
      exact ih (setCell b pos n) hlt hterm g hcomp

theorem cs_one_unique_completion :
    ∀ (N : ℕ) (b : Board), numEmpty b ≤ N → boundedVals b → validGrid b →
      count_solutions b = 1 →
      ∃ g, isCompletion b g ∧ ∀ h, isCompletion b h → h = g := by
  intro N
  induction N with
  | zero =>
    intro b hN hbv hvg _
    have hfull : ∀ p : Cell, b p.1 p.2 ≠ 0 :=
      numEmpty_eq_zero_iff.mp (Nat.le_zero.mp hN)
    refine ⟨b, ⟨hvg, ?_, fun p _ => rfl⟩, ?_⟩
    · intro p
      rcases hbv p with hz | hb
      · exact absurd hz (hfull p)
      · exact hb
    · rintro h ⟨_, _, hext⟩
      exact board_ext fun p => hext p (hfull p)
  | succ N ih =>
    intro b hN hbv hvg hcs
    cases hfe : find_empty b with
    | none =>
      have hfull := find_empty_none hfe
      refine ⟨b, ⟨hvg, ?_, fun p _ => rfl⟩, ?_⟩
      · intro p
        rcases hbv p with hz | hb
        · exact absurd hz (hfull p)
        · exact hb
      · rintro h ⟨_, _, hext⟩
        exact board_ext fun p => hext p (hfull p)
    | some pos =>
      have h0 : b pos.1 pos.2 = 0 := find_empty_some hfe
      have hsum := (cs_eq_one_iff hfe).mp hcs
      obtain ⟨nstar, hmem, hone, hzero⟩ := map_sum_eq_one hsum
      have hvstar : is_valid b nstar pos := by
        by_contra hc
        rw [if_neg hc] at hone
        exact absurd hone zero_ne_one
      rw [if_pos hvstar] at hone
      have hn19 := mem_nums19.mp hmem
      have hlt : numEmpty (setCell b pos nstar) ≤ N := by
        have := numEmpty_setCell_lt h0 (by omega : nstar ≠ 0)
        omega
      have hbv2 : boundedVals (setCell b pos nstar) :=
        boundedVals_setCell hbv hn19.1 hn19.2
      have hvg2 : validGrid (setCell b pos nstar) := by
        obtain ⟨pr, pc⟩ := pos
        exact validGrid_setCell hvg h0 hvstar (by omega)
      obtain ⟨g, hgc, huniq⟩ := ih (setCell b pos nstar) hlt hbv2 hvg2 hone
      refine ⟨g, (completion_step hfe g).mpr ⟨nstar, hmem, hvstar, hgc⟩, ?_⟩
      intro h hh
      obtain ⟨m, hm, hvm, hcm⟩ := (completion_step hfe h).mp hh
      by_cases hmn : m = nstar
      · subst hmn
        exact huniq h hcm
      · exfalso
        have hterm := hzero m hm hmn
        rw [if_pos hvm] at hterm
        have hm1 : 1 ≤ m := (mem_nums19.mp hm).1
        have hltm : numEmpty (setCell b pos m) ≤ N := by
          have := numEmpty_setCell_lt h0 (by omega : m ≠ 0)
          omega
        exact cs_zero_no_completion N (setCell b pos m) hltm hterm h hcm

theorem count_solutions_full {b : Board} (h : ∀ p : Cell, b p.1 p.2 ≠ 0) :
    count_solutions b = 1 :=
  count_solutions_none (find_empty_none_iff.mpr h)

/-- The difficulty → removal-target table of `get_puzzle`
(`squares_to_remove` in the source; `else` covers expert, master,
extreme). -/
def squares_to_remove (level : String) : ℕ :=
  if level = "easy" then 30
  else if level = "medium" then 40
  else if level = "hard" then 48
  else 54

/-- The removal loop of `get_puzzle`: walk the shuffled cell list,
tentatively clear each cell, and keep the clearing only when
`count_solutions` of the cleared board is exactly 1; stop early once
`removed` reaches the target. -/
def removeLoop : List Cell → ℕ → ℕ → Board → Board
  | [], _, _, puzzle => puzzle
  | p :: rest, removed, target, puzzle =>
    if removed ≥ target then puzzle
    else
      if count_solutions (setCell puzzle p 0) ≠ 1 then removeLoop rest removed target puzzle
      else removeLoop rest (removed + 1) target (setCell puzzle p 0)

/-- `SudokuGenerator.get_puzzle()`: start from a copy of the stored
solution and clear cells along the shuffled coordinate list `cells`
while unique solvability is preserved. -/
def get_puzzle (solution : Board) (level : String) (cells : List Cell) : Board :=
  removeLoop cells 0 (squares_to_remove level) solution

theorem removeLoop_inv :
    ∀ (cells : List Cell) (removed target : ℕ) (solution puzzle : Board),
      (∀ p : Cell, puzzle p.1 p.2 ≠ 0 → puzzle p.1 p.2 = solution p.1 p.2) →
      count_solutions puzzle = 1 →
      (∀ p : Cell, removeLoop cells removed target puzzle p.1 p.2 ≠ 0 →
        removeLoop cells removed target puzzle p.1 p.2 = solution p.1 p.2) ∧
      count_solutions (removeLoop cells removed target puzzle) = 1 := by
  intro cells
  induction cells with
  | nil => intro removed target solution puzzle hsub hcs; exact ⟨hsub, hcs⟩
  | cons p rest ih =>
    intro removed target solution puzzle hsub hcs
    rw [removeLoop]
    by_cases hstop : removed ≥ target
    · rw [if_pos hstop]
      exact ⟨hsub, hcs⟩
    · rw [if_neg hstop]
      by_cases hcount : count_solutions (setCell puzzle p 0) ≠ 1
      · rw [if_pos hcount]
        exact ih removed target solution puzzle hsub hcs
      · rw [if_neg hcount]
        have hsub2 : ∀ q : Cell, setCell puzzle p 0 q.1 q.2 ≠ 0 →
            setCell puzzle p 0 q.1 q.2 = solution q.1 q.2 := by
          intro q hq
          by_cases hqp : q = p
          · subst hqp
            rw [setCell_same] at hq
            exact absurd rfl hq
          · rw [setCell_other _ _ _ _ hqp] at hq ⊢
            exact hsub q hq
        exact ih (removed + 1) target solution (setCell puzzle p 0) hsub2
          (not_not.mp hcount)

/-- A fully solved grid: what `_generate_solution` stores as
`self.solution` (see the theorem for claim C2). -/
def isSolvedGrid (g : Board) : Prop :=
  validGrid g ∧ ∀ p : Cell, 1 ≤ g p.1 p.2 ∧ g p.1 p.2 ≤ 9

instance (g : Board) : Decidable (isSolvedGrid g) := by
  unfold isSolvedGrid; infer_instance

/-- C1.  For every puzzle returned by `get_puzzle` (the
uniqueness-preserving removal policy) from a solved grid `solution`:
the backtracking solution counter reports exactly one completion, every
non-empty cell of the puzzle equals the paired solution's value there,
and the unique completion (in the semantic sense counted by
`count_solutions`) is the paired solution itself.  `cells` is the
shuffled coordinate list produced by `random.shuffle`; the result holds
for every ordering. -/
theorem C1_get_puzzle_unique_completion (solution : Board) (level : String)
    (cells : List Cell) (hs : isSolvedGrid solution) :
    count_solutions (get_puzzle solution level cells) = 1 ∧
    (∀ p : Cell, get_puzzle solution level cells p.1 p.2 ≠ 0 →
      get_puzzle solution level cells p.1 p.2 = solution p.1 p.2) ∧
    (∀ g, isCompletion (get_puzzle solution level cells) g ↔ g = solution) := by
  obtain ⟨hvg, hbound⟩ := hs
  have hfull : ∀ p : Cell, solution p.1 p.2 ≠ 0 := by
    intro p
    have := (hbound p).1
    omega
  obtain ⟨hsub0, hcs0⟩ := removeLoop_inv cells 0 (squares_to_remove level) solution solution
    (fun _ _ => rfl) (count_solutions_full hfull)
  have hsub : ∀ p : Cell, get_puzzle solution level cells p.1 p.2 ≠ 0 →
      get_puzzle solution level cells p.1 p.2 = solution p.1 p.2 := hsub0
  have hcs : count_solutions (get_puzzle solution level cells) = 1 := hcs0
  refine ⟨hcs, hsub, ?_⟩
  have hsol_comp : isCompletion (get_puzzle solution level cells) solution :=
    ⟨hvg, hbound, fun p hp => (hsub p hp).symm⟩
  have hbv : boundedVals (get_puzzle solution level cells) := by
    intro p
    by_cases hz : get_puzzle solution level cells p.1 p.2 = 0
    · exact Or.inl hz
    · right
      rw [hsub p hz]
      exact hbound p
  have hvgp : validGrid (get_puzzle solution level cells) :=
    validGrid_mono hvg hsub
  obtain ⟨g, hgc, huniq⟩ := cs_one_unique_completion
    (numEmpty (get_puzzle solution level cells)) _ le_rfl hbv hvgp hcs
  have hgsol : g = solution := (huniq solution hsol_comp).symm ▸ rfl
  intro h
  constructor
  · intro hh
    rw [huniq h hh, ← huniq solution hsol_comp]
  · intro hh
    rw [hh]
    exact hsol_comp

/-- A concrete solved grid, used to discharge the hypotheses of the
claim theorems on explicit inputs. -/
def demoGrid : Board := fun i j => (i.val * 3 + i.val / 3 + j.val) % 9 + 1

theorem C1_witness :
    isSolvedGrid demoGrid ∧ count_solutions (get_puzzle demoGrid "easy" []) = 1 :=
  ⟨by decide, (C1_get_puzzle_unique_completion demoGrid "easy" [] (by decide)).1⟩

theorem findSome?_isSome_of_mem {α β : Type} {l : List α} {f : α → Option β} {a : α}
    (ha : a ∈ l) (hf : (f a).isSome) : (l.findSome? f).isSome := by
  induction l with
  | nil => cases ha
  | cons x l ih =>
    rw [List.findSome?_cons]
    cases hx : f x with
    | some b => simp
    | none =>
      rcases List.mem_cons.mp ha with hax | hal
      · subst hax
        rw [hx] at hf
        simp at hf
      · exact ih hal

theorem solve_sound {σ : Board → ShuffledNums} :
    ∀ (N : ℕ) (b g : Board), numEmpty b ≤ N → boundedVals b → validGrid b →
      solve σ b = some g → isCompletion b g := by
  intro N
  induction N with
  | zero =>
    intro b g hN hbv hvg hsol
    have hfull : ∀ p : Cell, b p.1 p.2 ≠ 0 :=
      numEmpty_eq_zero_iff.mp (Nat.le_zero.mp hN)
    rw [solve_none (find_empty_none_iff.mpr hfull)] at hsol
    injection hsol with hsol
    subst hsol
    refine ⟨hvg, ?_, fun p _ => rfl⟩
    intro p
    rcases hbv p with hz | hb
    · exact absurd hz (hfull p)
    · exact hb
  | succ N ih =>
    intro b g hN hbv hvg hsol
    cases hfe : find_empty b with
    | none =>
      have hfull := find_empty_none hfe
      rw [solve_none hfe] at hsol
      injection hsol with hsol
      subst hsol
      refine ⟨hvg, ?_, fun p _ => rfl⟩
      intro p
      rcases hbv p with hz | hb
      · exact absurd hz (hfull p)
      · exact hb
    | some pos =>
      have h0 : b pos.1 pos.2 = 0 := find_empty_some hfe
      rw [solve_some hfe] at hsol
      obtain ⟨a, _, ha⟩ := List.exists_of_findSome?_eq_some hsol
      by_cases hv : is_valid b a.val pos
      · rw [if_pos hv] at ha
        have hmem : a.val ∈ nums19 := (σ b).property.mem_iff.mp a.property
        have hn19 := mem_nums19.mp hmem
        have hlt : numEmpty (setCell b pos a.val) ≤ N := by
          have := numEmpty_setCell_lt h0 (by omega : a.val ≠ 0)
          omega
        have hbv2 : boundedVals (setCell b pos a.val) :=
          boundedVals_setCell hbv hn19.1 hn19.2
        have hvg2 : validGrid (setCell b pos a.val) := by
          obtain ⟨pr, pc⟩ := pos
          exact validGrid_setCell hvg h0 hv (by omega)
        have hcomp := ih (setCell b pos a.val) g hlt hbv2 hvg2 ha
        exact (completion_step hfe g).mpr ⟨a.val, hmem, hv, hcomp⟩
      · rw [if_neg hv] at ha
        cases ha

theorem solve_complete {σ : Board → ShuffledNums} :
    ∀ (N : ℕ) (b : Board), numEmpty b ≤ N → (∃ g, isCompletion b g) →
      (solve σ b).isSome := by
  intro N
  induction N with
  | zero =>
    intro b hN _
    have hfull : ∀ p : Cell, b p.1 p.2 ≠ 0 :=
      numEmpty_eq_zero_iff.mp (Nat.le_zero.mp hN)
    rw [solve_none (find_empty_none_iff.mpr hfull)]
    simp
  | succ N ih =>
    intro b hN hex
    cases hfe : find_empty b with
    | none =>
      rw [solve_none hfe]
      simp
    | some pos =>
      obtain ⟨g, hg⟩ := hex
      obtain ⟨n, hmem, hv, hcomp⟩ := (completion_step hfe g).mp hg
      have h0 : b pos.1 pos.2 = 0 := find_empty_some hfe
      have hn19 := mem_nums19.mp hmem
      have hlt : numEmpty (setCell b pos n) ≤ N := by
        have := numEmpty_setCell_lt h0 (by omega : n ≠ 0)
        omega
      have hrec : (solve σ (setCell b pos n)).isSome :=
        ih (setCell b pos n) hlt ⟨g, hcomp⟩
      rw [solve_some hfe]
      have hn : n ∈ (σ b).val := (σ b).property.mem_iff.mpr hmem
      apply findSome?_isSome_of_mem (List.mem_attach (σ b).val ⟨n, hn⟩)
      rw [if_pos hv]
      exact hrec

theorem exists_unique_digit {α : Type} [DecidableEq α] (s : Finset α) (f : α → ℕ)
    (hcard : s.card = 9) (hmem : ∀ a ∈ s, 1 ≤ f a ∧ f a ≤ 9)
    (hinj : ∀ a ∈ s, ∀ b ∈ s, f a = f b → a = b)
    (n : ℕ) (h1 : 1 ≤ n) (h9 : n ≤ 9) : ∃! a, a ∈ s ∧ f a = n := by
  have hsubset : s.image f ⊆ Finset.Icc 1 9 := by
    intro m hm
    obtain ⟨a, ha, rfl⟩ := Finset.mem_image.mp hm
    exact Finset.mem_Icc.mpr (hmem a ha)
  have hcardim : (s.image f).card = 9 := by
    rw [Finset.card_image_of_injOn (fun a ha b hb => hinj a ha b hb)]
    exact hcard
  have hicc : (Finset.Icc 1 9 : Finset ℕ).card = 9 := by decide
  have heq : s.image f = Finset.Icc 1 9 :=
    Finset.eq_of_subset_of_card_le hsubset (by omega)
  have hn : n ∈ s.image f := by
    rw [heq]
    exact Finset.mem_Icc.mpr ⟨h1, h9⟩
  obtain ⟨a, ha, hfa⟩ := Finset.mem_image.mp hn
  refine ⟨a, ⟨ha, hfa⟩, ?_⟩
  rintro y ⟨hy, hfy⟩
  exact hinj y hy a ha (by rw [hfy, hfa])

/-- `SudokuGenerator.__init__` sets `self.board` to a 9×9 grid of
zeros. -/
def emptyBoard : Board := fun _ _ => 0

/-- `SudokuGenerator._generate_solution`: run `solve` on the initially
empty board; the stored `self.solution` is the resulting grid. -/
def generate_solution (σ : Board → ShuffledNums) : Option Board :=
  solve σ emptyBoard

/-- C2.  For every generator instance (i.e. every outcome `σ` of the
digit shuffles), `solve` succeeds on the initially empty grid, so the
stored solution exists; it is complete (every cell holds a digit 1..9)
and valid: every row, every column and every 3×3 box contains each
digit 1..9 exactly once (is a permutation of 1..9). -/
theorem C2_generate_solution_valid (σ : Board → ShuffledNums) :
    ∃ g, generate_solution σ = some g ∧
      (∀ p : Cell, 1 ≤ g p.1 p.2 ∧ g p.1 p.2 ≤ 9) ∧
      (∀ i : Fin 9, ∀ n : ℕ, 1 ≤ n → n ≤ 9 → ∃! j : Fin 9, g i j = n) ∧
      (∀ j : Fin 9, ∀ n : ℕ, 1 ≤ n → n ≤ 9 → ∃! i : Fin 9, g i j = n) ∧
      (∀ bi bj : Fin 3, ∀ n : ℕ, 1 ≤ n → n ≤ 9 →
        ∃! q : Cell, (q.1.val / 3 = bi.val ∧ q.2.val / 3 = bj.val) ∧ g q.1 q.2 = n) := by
  have hcomp : isCompletion emptyBoard demoGrid := by decide
  have hsome : (solve σ emptyBoard).isSome :=
    solve_complete (numEmpty emptyBoard) emptyBoard le_rfl ⟨demoGrid, hcomp⟩
  obtain ⟨g, hg⟩ := Option.isSome_iff_exists.mp hsome
  have hsound := solve_sound (numEmpty emptyBoard) emptyBoard g le_rfl
    (fun _ => Or.inl rfl) (fun p hp => absurd rfl hp) hg
  obtain ⟨hvg, hbound, _⟩ := hsound
  refine ⟨g, hg, hbound, ?_, ?_, ?_⟩
  · intro i n h1 h9
    have h := exists_unique_digit Finset.univ (fun j : Fin 9 => g i j)
      (by simp) (fun a _ => hbound (i, a))
      (fun a _ c _ hac => ?_) n h1 h9
    · obtain ⟨j, ⟨_, hj⟩, huniq⟩ := h
      exact ⟨j, hj, fun y hy => huniq y ⟨Finset.mem_univ y, hy⟩⟩
    · have hb1 : 1 ≤ g i a := (hbound (i, a)).1
      have hne : g i a ≠ 0 := by omega
      have hval := hvg (i, a) hne
      have hac2 : g i a = g i c := hac
      exact hval.1 c hac2.symm
  · intro j n h1 h9
    have h := exists_unique_digit Finset.univ (fun i : Fin 9 => g i j)
      (by simp) (fun a _ => hbound (a, j))
      (fun a _ c _ hac => ?_) n h1 h9
    · obtain ⟨i, ⟨_, hi⟩, huniq⟩ := h
      exact ⟨i, hi, fun y hy => huniq y ⟨Finset.mem_univ y, hy⟩⟩
    · have hb1 : 1 ≤ g a j := (hbound (a, j)).1
      have hne : g a j ≠ 0 := by omega
      have hval := hvg (a, j) hne
      have hac2 : g a j = g c j := hac
      exact hval.2.1 c hac2.symm
  · intro bi bj n h1 h9
    have hcard : (Finset.univ.filter fun q : Cell =>
        q.1.val / 3 = bi.val ∧ q.2.val / 3 = bj.val).card = 9 := by
      revert bi bj
      decide
    have h := exists_unique_digit
      (Finset.univ.filter fun q : Cell => q.1.val / 3 = bi.val ∧ q.2.val / 3 = bj.val)
      (fun q : Cell => g q.1 q.2) hcard
      (fun a _ => hbound a)
      (fun a ha c hc hac => ?_) n h1 h9
    · obtain ⟨q, ⟨hqmem, hq⟩, huniq⟩ := h
      simp only [Finset.mem_filter, Finset.mem_univ, true_and] at hqmem
      refine ⟨q, ⟨hqmem, hq⟩, ?_⟩
      rintro y ⟨hymem, hy⟩
      exact huniq y ⟨by simp [Finset.mem_filter, hymem], hy⟩
    · simp only [Finset.mem_filter, Finset.mem_univ, true_and] at ha hc
      have hb1 : 1 ≤ g a.1 a.2 := (hbound a).1
      have hne : g a.1 a.2 ≠ 0 := by omega
      have hval := hvg a hne
      have hsb : sameBox c a := by
        constructor
        · rw [hc.1, ha.1]
        · rw [hc.2, ha.2]
      exact (hval.2.2 c hsb hac.symm).symm

/-- The identity shuffle (one possible outcome of `random.shuffle`). -/
def idShuffle : Board → ShuffledNums := fun _ => ⟨nums19, List.Perm.refl nums19⟩

theorem C2_witness :
    ∃ g, generate_solution idShuffle = some g ∧
      (∀ p : Cell, 1 ≤ g p.1 p.2 ∧ g p.1 p.2 ≤ 9) ∧
      (∀ i : Fin 9, ∀ n : ℕ, 1 ≤ n → n ≤ 9 → ∃! j : Fin 9, g i j = n) ∧
      (∀ j : Fin 9, ∀ n : ℕ, 1 ≤ n → n ≤ 9 → ∃! i : Fin 9, g i j = n) ∧
      (∀ bi bj : Fin 3, ∀ n : ℕ, 1 ≤ n → n ≤ 9 →
        ∃! q : Cell, (q.1.val / 3 = bi.val ∧ q.2.val / 3 = bj.val) ∧ g q.1 q.2 = n) :=
  C2_generate_solution_valid idShuffle

/-!
Part 2: the session coordinator of `main.py`.

Rooms, players and game states are translated field-by-field from the
constructors `Room.__init__`, `Player.__init__` and
`GameState.__init__`.  Socket handlers become functions from the
looked-up room and the event payload to a result `HR` holding the
updated room, the list of emitted events, and an optional uncaught
Python exception (`None` for a normal return).  The `rooms.get /
player_id not in room.players` guards that silently drop unknown
rooms/players are the `none` branches of the lookups.  Python integer
indexing into the 9-element board lists (negative indices wrap, out of
range raises `IndexError`) is modelled by `pyNorm`.
-/

/-- An uncaught Python exception escaping a handler. -/
inductive PyErr : Type
  | indexError : PyErr
  | attributeError : String → PyErr
  | typeError : PyErr
deriving DecidableEq, Repr

/-- The socket.io emissions of the handlers (payloads are kept only
where a claim needs them). -/
inductive Ev : Type
  | errorMsg : String → Ev
  | currentPlayers : Ev
  | gameStarted : Ev
  | gameStateUpdate : Ev
  | hintGiven : Fin 9 → Fin 9 → ℕ → Ev
  | playerEliminated : String → Ev
  | eliminatedMsg : Ev
  | playerFinished : String → Ev
  | gameOver : String → Ev
deriving DecidableEq, Repr

/-- Python indexing of a list of length `n` by a possibly negative
index: `0 ≤ i < n` is used as is, `-n ≤ i < 0` counts from the end,
anything else raises `IndexError` (the `none` case). -/
def pyNorm (n : ℕ) (i : ℤ) : Option (Fin n) :=
  if h : 0 ≤ i ∧ i < (n : ℤ) then
    some ⟨i.toNat, by omega⟩
  else if h2 : -(n : ℤ) ≤ i ∧ i < 0 then
    some ⟨(i + (n : ℤ)).toNat, by omega⟩
  else none

/-- `GameState.__init__(self, puzzle, solution)`. -/
structure GameState : Type where
  puzzle : Board
  solution : Board
  current_board : Board
  board_history : List Board
  notes_board : Fin 9 → Fin 9 → List ℕ
deriving DecidableEq

/-- A fresh `GameState`: `current_board` is a copy of the puzzle, the
history is empty and every cell's notes list is empty. -/
def GameState.init (puzzle solution : Board) : GameState :=
  { puzzle := puzzle
    solution := solution
    current_board := puzzle
    board_history := []
    notes_board := fun _ _ => [] }

/-- `Player.__init__(self, id, name)` (plus `finish_time`, an attribute
`on_move` adds dynamically on completion). -/
structure Player : Type where
  id : String
  name : String
  mistakes : ℕ
  hints_used : ℕ
  eliminated : Bool
  finished : Bool
  game_state : GameState
  score : ℤ
  sid : Option String
  finish_time : Option ℤ
deriving DecidableEq

/-- A fresh player as built at the room-creation and join sites, where
`Player(...)` is immediately followed by `player.game_state =
GameState(puzzle, solution)`. -/
def Player.init (id name : String) (puzzle solution : Board) : Player :=
  { id := id
    name := name
    mistakes := 0
    hints_used := 0
    eliminated := false
    finished := false
    game_state := GameState.init puzzle solution
    score := 0
    sid := none
    finish_time := none }

/-- `DIFFICULTY_TIME_LIMITS` (seconds); `dict.get` returns `None` for
unknown keys. -/
def DIFFICULTY_TIME_LIMITS (difficulty : String) : Option ℕ :=
  if difficulty = "easy" then some (8 * 60)
  else if difficulty = "medium" then some (10 * 60)
  else if difficulty = "hard" then some (15 * 60)
  else if difficulty = "expert" then some (20 * 60)
  else if difficulty = "master" then some (25 * 60)
  else if difficulty = "extreme" then some (30 * 60)
  else none

/-- `Room.__init__(self, id, host_id, puzzle, solution, difficulty)`.
`players` is the insertion-ordered `dict` of player id → `Player`; a
pending `threading.Timer` is modelled by the delay it was scheduled
with.  Note: `__init__` assigns no `game_mode` attribute. -/
structure Room : Type where
  id : String
  players : List (String × Player)
  host_id : String
  game_started : Bool
  game_over : Bool
  puzzle : Board
  solution : Board
  difficulty : String
  time_limit : Option ℕ
  timer : Option ℕ
  start_time : Option ℤ
deriving DecidableEq

/-- `room.players[player_id]` / `player_id in room.players`. -/
def lookupP (players : List (String × Player)) (pid : String) : Option Player :=
  (players.find? fun q => q.1 == pid).map fun q => q.2

/-- In-place mutation of the player object bound to `pid` (Python
mutates the object held in the dict). -/
def setPlayer (room : Room) (pid : String) (p : Player) : Room :=
  { room with players := room.players.map fun q => if q.1 = pid then (q.1, p) else q }

/-- Result of one socket handler: the room state after the handler
(including mutations made before an exception), the emitted events, and
the uncaught exception if one escaped. -/
structure HR : Type where
  room : Room
  events : List Ev
  err : Option PyErr
deriving DecidableEq

/-- `check_game_over(room_id)`: while the game is running, if every
player is finished or eliminated, cancel the timer, flip the flags and
broadcast `game_over`. -/
def check_game_over (room : Room) : Room × List Ev :=
  if room.game_started = false then (room, [])
  else if room.players.all fun q => q.2.finished || q.2.eliminated then
    ({ room with timer := none, game_started := false, game_over := true },
      [Ev.gameOver "All players have finished!"])
  else (room, [])

/-- `on_start_game(data)`.  After the host check the handler evaluates
`room.game_mode`, but `Room.__init__` never assigns a `game_mode`
attribute, so the attribute access raises `AttributeError` and the
statements that would start the game (lines 204–214 of `main.py`) are
unreachable. -/
def on_start_game (room : Room) (player_id : String) (now : ℤ) : HR :=
  if player_id ≠ room.host_id then ⟨room, [], none⟩
  else ⟨room, [], some (PyErr.attributeError "game_mode")⟩

/-- `on_move(data)`; `now` is `time.time()` at the completion check.
Mutation order follows the source: history push, board write, notes
clear, scoring/elimination, broadcasts, completion check.  If the board
write raises `IndexError`, the history push has already happened. -/
def on_move (room : Room) (player_id : String) (r c : ℤ) (value : ℕ) (now : ℤ) : HR :=
  match lookupP room.players player_id with
  | none => ⟨room, [], none⟩
  | some player0 =>
    if room.game_started = false then ⟨room, [], none⟩
    else if player0.finished || player0.eliminated then ⟨room, [], none⟩
    else
      let gs0 := player0.game_state
      let gs1 := { gs0 with board_history := gs0.board_history ++ [gs0.current_board] }
      match pyNorm 9 r, pyNorm 9 c with
      | some ri, some ci =>
        let gs2 := { gs1 with
          current_board := setCell gs1.current_board (ri, ci) value
          notes_board := setCell gs1.notes_board (ri, ci) [] }
        let step1 : Player × Room × List Ev :=
          if value ≠ 0 then
            if gs2.solution ri ci ≠ value then
              let p1 := { player0 with
                game_state := gs2
                mistakes := player0.mistakes + 1
                score := player0.score - 20 }
              if p1.mistakes ≥ 3 then
                let p2 := { p1 with eliminated := true }
                let room1 := setPlayer room player_id p2
                let cgo := check_game_over room1
                (p2, cgo.1, [Ev.playerEliminated player0.id, Ev.eliminatedMsg] ++ cgo.2)
              else (p1, setPlayer room player_id p1, [])
            else
              let p1 := { player0 with game_state := gs2, score := player0.score + 50 }
              (p1, setPlayer room player_id p1, [])
          else
            let p1 := { player0 with game_state := gs2 }
            (p1, setPlayer room player_id p1, [])
        let p3 := step1.1
        let room3 := step1.2.1
        let evs := step1.2.2 ++ [Ev.currentPlayers, Ev.gameStateUpdate]
        if ∀ i j : Fin 9, gs2.current_board i j ≠ 0 then
          if gs2.current_board = gs2.solution then
            match room.start_time with
            | some st =>
              let p4 := { p3 with finished := true, finish_time := some (now - st) }
              let room4 := setPlayer room3 player_id p4
              let cgo2 := check_game_over room4
              ⟨cgo2.1, evs ++ [Ev.playerFinished player0.id] ++ cgo2.2, none⟩
            | none =>
              ⟨setPlayer room3 player_id { p3 with finished := true }, evs,
                some PyErr.typeError⟩
          else ⟨room3, evs, none⟩
        else ⟨room3, evs, none⟩
      | _, _ =>
        ⟨setPlayer room player_id { player0 with game_state := gs1 }, [],
          some PyErr.indexError⟩

/-- `on_notes(data)`: replaces the notes list of one cell; no
`game_started` check and no validation. -/
def on_notes (room : Room) (player_id : String) (r c : ℤ) (notes : List ℕ) : HR :=
  match lookupP room.players player_id with
  | none => ⟨room, [], none⟩
  | some player =>
    match pyNorm 9 r, pyNorm 9 c with
    | some ri, some ci =>
      let gs := player.game_state
      let p1 := { player with
        game_state := { gs with notes_board := setCell gs.notes_board (ri, ci) notes } }
      ⟨setPlayer room player_id p1, [Ev.gameStateUpdate], none⟩
    | _, _ => ⟨room, [], some PyErr.indexError⟩

/-- `on_undo(data)`: pop the most recent history snapshot back into the
current board, or report "Nothing to undo!"; scores and mistake counts
are untouched. -/
def on_undo (room : Room) (player_id : String) : HR :=
  match lookupP room.players player_id with
  | none => ⟨room, [], none⟩
  | some player =>
    let gs := player.game_state
    match gs.board_history.getLast? with
    | some prev =>
      let p1 := { player with
        game_state := { gs with
          current_board := prev
          board_history := gs.board_history.dropLast } }
      ⟨setPlayer room player_id p1, [Ev.gameStateUpdate], none⟩
    | none => ⟨room, [Ev.errorMsg "Nothing to undo!"], none⟩

/-- `on_hint(data)`; `pick` stands for the randomness of
`random.choice`, reduced modulo the number of empty cells so that every
choice the source can make is reachable. -/
def on_hint (room : Room) (player_id : String) (pick : ℕ) : HR :=
  match lookupP room.players player_id with
  | none => ⟨room, [], none⟩
  | some player =>
    let gs := player.game_state
    if player.hints_used < 3 then
      let empty_cells := cellsRM.filter fun p => gs.current_board p.1 p.2 == 0
      if empty_cells ≠ [] then
        let rc := empty_cells.getD (pick % empty_cells.length) ((0 : Fin 9), (0 : Fin 9))
        let hint_value := gs.solution rc.1 rc.2
        let p1 := { player with
          game_state := { gs with current_board := setCell gs.current_board rc hint_value }
          hints_used := player.hints_used + 1
          score := player.score + 25 }
        ⟨setPlayer room player_id p1,
          [Ev.currentPlayers, Ev.hintGiven rc.1 rc.2 hint_value, Ev.gameStateUpdate], none⟩
      else ⟨room, [Ev.errorMsg "No empty cells for a hint!"], none⟩
    else ⟨room, [Ev.errorMsg "No hints left!"], none⟩

/-- `join_room_route`: admission while the room is in the lobby; every
joining player gets their own fresh `GameState` built from the room's
puzzle and solution.  `new_pid` stands for the generated `uuid4`. -/
def join_room_route (room : Room) (player_name new_pid : String) :
    Except (String × ℕ) Room :=
  if room.game_over then Except.error ("Game has already finished", 403)
  else if room.game_started then Except.error ("Game has already started", 403)
  else Except.ok { room with
    players := room.players ++ [(new_pid, Player.init new_pid player_name room.puzzle room.solution)] }

theorem lookupP_map_set_same :
    ∀ (ps : List (String × Player)) (pid : String) (p : Player),
      (lookupP ps pid).isSome →
      lookupP (ps.map fun q => if q.1 = pid then (q.1, p) else q) pid = some p := by
  intro ps pid p h
  induction ps with
  | nil => simp [lookupP] at h
  | cons q rest ih =>
    simp only [lookupP, List.map_cons, List.find?_cons] at h ih ⊢
    by_cases hq : q.1 = pid
    · simp [hq]
    · have hq2 : (q.1 == pid) = false := by simp [hq]
      simp only [if_neg hq, hq2] at h ⊢
      exact ih h

theorem lookupP_map_set_other :
    ∀ (ps : List (String × Player)) (pid pid2 : String) (p : Player), pid2 ≠ pid →
      lookupP (ps.map fun q => if q.1 = pid then (q.1, p) else q) pid2 =
        lookupP ps pid2 := by
  intro ps pid pid2 p h
  induction ps with
  | nil => simp [lookupP]
  | cons q rest ih =>
    simp only [lookupP, List.map_cons, List.find?_cons] at ih ⊢
    by_cases hq : q.1 = pid
    · have hq3 : (q.1 == pid2) = false := by
        simp only [beq_eq_false_iff_ne, ne_eq]
        intro hc
        exact h (by rw [← hc, hq])
      rw [if_pos hq]
      simp only [show ((q.1, p).1 == pid2) = false from hq3, hq3]
      exact ih
    · simp only [if_neg hq]
      cases hqq : (q.1 == pid2) with
      | true => simp [hqq]
      | false =>
        simp only [hqq]
        exact ih

theorem lookupP_setPlayer_same {room : Room} {pid : String} {p0 p : Player}
    (h : lookupP room.players pid = some p0) :
    lookupP (setPlayer room pid p).players pid = some p :=
  lookupP_map_set_same room.players pid p (by rw [h]; rfl)

theorem lookupP_setPlayer_other {room : Room} {pid pid2 : String} {p : Player}
    (h : pid2 ≠ pid) :
    lookupP (setPlayer room pid p).players pid2 = lookupP room.players pid2 :=
  lookupP_map_set_other room.players pid pid2 p h

/-- A fresh player as created by the create/join routes, holding an
all-blank puzzle board and `demoGrid` as solution. -/
def demoPlayer (pid name : String) : Player :=
  Player.init pid name emptyBoard demoGrid

/-- A two-player room whose game has been (externally) marked started:
the state the gameplay handlers operate on. -/
def demoRoom : Room :=
  { id := "room1"
    players := [("A", demoPlayer "A" "Alice"), ("B", demoPlayer "B" "Bob")]
    host_id := "A"
    game_started := true
    game_over := false
    puzzle := emptyBoard
    solution := demoGrid
    difficulty := "easy"
    time_limit := some 480
    timer := some 480
    start_time := some 0 }

/-- The same room still in the lobby. -/
def demoLobby : Room :=
  { demoRoom with game_started := false, timer := none, start_time := none }

/-- C3 (code bug).  The claim says a start command from the host
transitions the room to Playing, records a start timestamp and
schedules the timer.  In the code, after the host check the handler
reads `room.game_mode`, an attribute `Room.__init__` never assigns, so
every start command from the host raises `AttributeError` and the room
never starts; only the non-host half of the claim (the command is
ignored) holds. -/
theorem C3_start_game_attribute_error (room : Room) (pid : String) (now : ℤ) :
    (on_start_game room pid now).room = room ∧
    (on_start_game room pid now).room.game_started = room.game_started ∧
    (pid = room.host_id →
      (on_start_game room pid now).err = some (PyErr.attributeError "game_mode")) ∧
    (pid ≠ room.host_id → on_start_game room pid now = ⟨room, [], none⟩) := by
  unfold on_start_game
  by_cases h : pid = room.host_id
  · rw [if_neg (not_not_intro h)]
    exact ⟨rfl, rfl, fun _ => rfl, fun hc => absurd h hc⟩
  · rw [if_pos h]
    exact ⟨rfl, rfl, fun hc => absurd hc h, fun _ => rfl⟩

theorem C3_start_game_witness :
    (on_start_game demoLobby "A" 0).err = some (PyErr.attributeError "game_mode") ∧
    (on_start_game demoLobby "A" 0).room.game_started = false ∧
    on_start_game demoLobby "B" 0 = ⟨demoLobby, [], none⟩ :=
  ⟨(C3_start_game_attribute_error demoLobby "A" 0).2.2.1 rfl,
    Eq.trans (C3_start_game_attribute_error demoLobby "A" 0).2.1 rfl,
    (C3_start_game_attribute_error demoLobby "B" 0).2.2.2 (by decide)⟩

theorem check_game_over_players (room : Room) :
    (check_game_over room).1.players = room.players := by
  unfold check_game_over
  split
  · rfl
  · split
    · rfl
    · rfl

theorem check_game_over_events (room : Room) :
    (check_game_over room).2 = [] ∨
      (check_game_over room).2 = [Ev.gameOver "All players have finished!"] := by
  unfold check_game_over
  split
  · exact Or.inl rfl
  · split
    · exact Or.inr rfl
    · exact Or.inl rfl

theorem errorMsg_not_mem_cgo (rm : Room) (m : String) :
    Ev.errorMsg m ∉ (check_game_over rm).2 := by
  rcases check_game_over_events rm with h | h <;> rw [h] <;> simp

/-- C4 (amended).  `on_move` implements no cell locking at all: whenever
the room is started and the acting player is known, not finished and not
eliminated, a move with in-range indices is applied to that player's own
board — no `Locked` (or any other) error exists, regardless of any other
player's recent activity on the same cell. -/
theorem C4_no_lock_rejection (room : Room) (pid : String) (p : Player) (r c : ℤ)
    (ri ci : Fin 9) (value : ℕ) (now st : ℤ)
    (hp : lookupP room.players pid = some p)
    (hs : room.game_started = true)
    (hf : p.finished = false) (he : p.eliminated = false)
    (hr : pyNorm 9 r = some ri) (hc : pyNorm 9 c = some ci)
    (hst : room.start_time = some st) :
    (on_move room pid r c value now).err = none ∧
    (∀ m : String, Ev.errorMsg m ∉ (on_move room pid r c value now).events) ∧
    ∃ q : Player, lookupP (on_move room pid r c value now).room.players pid = some q ∧
      q.game_state.current_board = setCell p.game_state.current_board (ri, ci) value := by
  unfold on_move
  rw [hp]
  dsimp only
  rw [hs, hf, he, hr, hc]
  dsimp only
  simp only [show (true = false) = False from by simp,
    show ((false || false) = true) = False from by simp, if_false]
  by_cases hval : value ≠ 0
  · rw [if_pos hval]
    by_cases hsol : p.game_state.solution ri ci ≠ value
    · rw [if_pos hsol]
      have hne : setCell p.game_state.current_board (ri, ci) value ≠
          p.game_state.solution := by
        intro hcon
        exact hsol (by rw [← hcon, setCell_same])
      by_cases hm3 : p.mistakes + 1 ≥ 3
      · rw [if_pos hm3]
        by_cases hfull : ∀ i j : Fin 9,
            setCell p.game_state.current_board (ri, ci) value i j ≠ 0
        · rw [if_pos hfull, if_neg hne]
          refine ⟨rfl, ?_, ?_⟩
          · intro m
            simp [errorMsg_not_mem_cgo]
          · rw [check_game_over_players]
            exact ⟨_, lookupP_setPlayer_same hp, rfl⟩
        · rw [if_neg hfull]
          refine ⟨rfl, ?_, ?_⟩
          · intro m
            simp [errorMsg_not_mem_cgo]
          · rw [check_game_over_players]
            exact ⟨_, lookupP_setPlayer_same hp, rfl⟩
      · rw [if_neg hm3]
        by_cases hfull : ∀ i j : Fin 9,
            setCell p.game_state.current_board (ri, ci) value i j ≠ 0
        · rw [if_pos hfull, if_neg hne]
          exact ⟨rfl, by intro m; simp, ⟨_, lookupP_setPlayer_same hp, rfl⟩⟩
        · rw [if_neg hfull]
          exact ⟨rfl, by intro m; simp, ⟨_, lookupP_setPlayer_same hp, rfl⟩⟩
    · rw [if_neg hsol]
      by_cases hfull : ∀ i j : Fin 9,
          setCell p.game_state.current_board (ri, ci) value i j ≠ 0
      · rw [if_pos hfull]
        by_cases heq : setCell p.game_state.current_board (ri, ci) value =
            p.game_state.solution
        · rw [if_pos heq, hst]
          dsimp only
          refine ⟨rfl, ?_, ?_⟩
          · intro m
            simp [errorMsg_not_mem_cgo]
          · rw [check_game_over_players]
            exact ⟨_, lookupP_setPlayer_same (lookupP_setPlayer_same hp), rfl⟩
        · rw [if_neg heq]
          exact ⟨rfl, by intro m; simp, ⟨_, lookupP_setPlayer_same hp, rfl⟩⟩
      · rw [if_neg hfull]
        exact ⟨rfl, by intro m; simp, ⟨_, lookupP_setPlayer_same hp, rfl⟩⟩
  · rw [if_neg hval]
    have hv0 : value = 0 := not_not.mp hval
    have hnfull : ¬ ∀ i j : Fin 9,
        setCell p.game_state.current_board (ri, ci) value i j ≠ 0 := by
      intro hful
      exact hful ri ci (by rw [setCell_same, hv0])
    rw [if_neg hnfull]
    exact ⟨rfl, by intro m; simp, ⟨_, lookupP_setPlayer_same hp, rfl⟩⟩

/-- The room right after player A has acted on cell (2,3) at time 0 —
the nearest thing to "A holds the cell" the code can express, since no
lock state exists. -/
def lockStepRoom : Room := (on_move demoRoom "A" 2 3 5 0).room

/-- C4 counterexample.  Player A has just acted on cell (2,3); player
B's move on (2,3) zero seconds later (well within the claimed 5-second
TTL) is *not* rejected with a `Locked` error: it succeeds, emits no
error event, and changes B's board — `on_move` implements no cell
locks. -/
theorem C4_counterexample :
    (on_move lockStepRoom "B" 2 3 5 0).err = none ∧
    (on_move lockStepRoom "B" 2 3 5 0).events = [Ev.currentPlayers, Ev.gameStateUpdate] ∧
    Option.map (fun q => q.game_state.current_board 2 3)
      (lookupP (on_move lockStepRoom "B" 2 3 5 0).room.players "B") = some 5 ∧
    Option.map (fun q => q.game_state.current_board 2 3)
      (lookupP lockStepRoom.players "B") = some 0 := by
  decide

theorem C4_witness :
    (on_move demoRoom "A" 0 0 1 7).err = none ∧
    ∃ q : Player, lookupP (on_move demoRoom "A" 0 0 1 7).room.players "A" = some q ∧
      q.game_state.current_board =
        setCell (demoPlayer "A" "Alice").game_state.current_board (0, 0) 1 :=
  ⟨(C4_no_lock_rejection demoRoom "A" (demoPlayer "A" "Alice") 0 0 0 0 1 7 0
      rfl rfl rfl rfl (by decide) (by decide) rfl).1,
    (C4_no_lock_rejection demoRoom "A" (demoPlayer "A" "Alice") 0 0 0 0 1 7 0
      rfl rfl rfl rfl (by decide) (by decide) rfl).2.2⟩

/-- The full effect of an accepted move on the acting player: history
pushed, board cell written, notes cleared, and the scoring/elimination
outcome in each of the three value cases. -/
theorem on_move_accepted (room : Room) (pid : String) (p : Player) (r c : ℤ)
    (ri ci : Fin 9) (value : ℕ) (now : ℤ)
    (hp : lookupP room.players pid = some p)
    (hs : room.game_started = true)
    (hf : p.finished = false) (he : p.eliminated = false)
    (hr : pyNorm 9 r = some ri) (hc : pyNorm 9 c = some ci) :
    ∃ q : Player, lookupP (on_move room pid r c value now).room.players pid = some q ∧
      q.game_state.current_board = setCell p.game_state.current_board (ri, ci) value ∧
      q.game_state.notes_board = setCell p.game_state.notes_board (ri, ci) [] ∧
      q.game_state.board_history =
        p.game_state.board_history ++ [p.game_state.current_board] ∧
      q.game_state.solution = p.game_state.solution ∧
      q.hints_used = p.hints_used ∧
      (value ≠ 0 → p.game_state.solution ri ci ≠ value →
        q.mistakes = p.mistakes + 1 ∧ q.score = p.score - 20 ∧
        (q.eliminated = true ↔ p.mistakes + 1 ≥ 3)) ∧
      (value ≠ 0 → p.game_state.solution ri ci = value →
        q.mistakes = p.mistakes ∧ q.score = p.score + 50 ∧ q.eliminated = false) ∧
      (value = 0 →
        q.mistakes = p.mistakes ∧ q.score = p.score ∧ q.eliminated = false) := by
  unfold on_move
  rw [hp]
  dsimp only
  rw [hs, hf, he, hr, hc]
  dsimp only
  simp only [show (true = false) = False from by simp,
    show ((false || false) = true) = False from by simp, if_false]
  by_cases hval : value ≠ 0
  · rw [if_pos hval]
    by_cases hsol : p.game_state.solution ri ci ≠ value
    · rw [if_pos hsol]
      have hne : setCell p.game_state.current_board (ri, ci) value ≠
          p.game_state.solution := by
        intro hcon
        exact hsol (by rw [← hcon, setCell_same])
      by_cases hm3 : p.mistakes + 1 ≥ 3
      · rw [if_pos hm3]
        by_cases hfull : ∀ i j : Fin 9,
            setCell p.game_state.current_board (ri, ci) value i j ≠ 0
        · rw [if_pos hfull, if_neg hne]
          rw [check_game_over_players]
          exact ⟨_, lookupP_setPlayer_same hp, rfl, rfl, rfl, rfl, rfl,
            fun _ _ => ⟨rfl, rfl, by simp [hm3]⟩,
            fun _ hcon => absurd hcon hsol,
            fun hz => absurd hz hval⟩
        · rw [if_neg hfull]
          rw [check_game_over_players]
          exact ⟨_, lookupP_setPlayer_same hp, rfl, rfl, rfl, rfl, rfl,
            fun _ _ => ⟨rfl, rfl, by simp [hm3]⟩,
            fun _ hcon => absurd hcon hsol,
            fun hz => absurd hz hval⟩
      · rw [if_neg hm3]
        by_cases hfull : ∀ i j : Fin 9,
            setCell p.game_state.current_board (ri, ci) value i j ≠ 0
        · rw [if_pos hfull, if_neg hne]
          exact ⟨_, lookupP_setPlayer_same hp, rfl, rfl, rfl, rfl, rfl,
            fun _ _ => ⟨rfl, rfl, by simp [he, hm3]⟩,
            fun _ hcon => absurd hcon hsol,
            fun hz => absurd hz hval⟩
        · rw [if_neg hfull]
          exact ⟨_, lookupP_setPlayer_same hp, rfl, rfl, rfl, rfl, rfl,
            fun _ _ => ⟨rfl, rfl, by simp [he, hm3]⟩,
            fun _ hcon => absurd hcon hsol,
            fun hz => absurd hz hval⟩
    · rw [if_neg hsol]
      have hsol2 : p.game_state.solution ri ci = value := not_not.mp hsol
      by_cases hfull : ∀ i j : Fin 9,
          setCell p.game_state.current_board (ri, ci) value i j ≠ 0
      · rw [if_pos hfull]
        by_cases heq : setCell p.game_state.current_board (ri, ci) value =
            p.game_state.solution
        · rw [if_pos heq]
          cases hst : room.start_time with
          | some st =>
            dsimp only
            rw [check_game_over_players]
            exact ⟨_, lookupP_setPlayer_same (lookupP_setPlayer_same hp), rfl, rfl,
              rfl, rfl, rfl,
              fun _ hcon => absurd hsol2 hcon,
              fun _ _ => ⟨rfl, rfl, rfl⟩,
              fun hz => absurd hz hval⟩
          | none =>
            dsimp only
            exact ⟨_, lookupP_setPlayer_same (lookupP_setPlayer_same hp), rfl, rfl,
              rfl, rfl, rfl,
              fun _ hcon => absurd hsol2 hcon,
              fun _ _ => ⟨rfl, rfl, rfl⟩,
              fun hz => absurd hz hval⟩
        · rw [if_neg heq]
          exact ⟨_, lookupP_setPlayer_same hp, rfl, rfl, rfl, rfl, rfl,
            fun _ hcon => absurd hsol2 hcon,
            fun _ _ => ⟨rfl, rfl, rfl⟩,
            fun hz => absurd hz hval⟩
      · rw [if_neg hfull]
        exact ⟨_, lookupP_setPlayer_same hp, rfl, rfl, rfl, rfl, rfl,
          fun _ hcon => absurd hsol2 hcon,
          fun _ _ => ⟨rfl, rfl, rfl⟩,
          fun hz => absurd hz hval⟩
  · rw [if_neg hval]
    have hv0 : value = 0 := not_not.mp hval
    have hnfull : ¬ ∀ i j : Fin 9,
        setCell p.game_state.current_board (ri, ci) value i j ≠ 0 := by
      intro hful
      exact hful ri ci (by rw [setCell_same, hv0])
    rw [if_neg hnfull]
    exact ⟨_, lookupP_setPlayer_same hp, rfl, rfl, rfl, rfl, rfl,
      fun hv _ => absurd hv0 hv,
      fun hv _ => absurd hv0 hv,
      fun _ => ⟨rfl, rfl, rfl⟩⟩

theorem on_move_eliminated_noop (room : Room) (pid : String) (p : Player) (r c : ℤ)
    (value : ℕ) (now : ℤ) (hp : lookupP room.players pid = some p)
    (he : p.eliminated = true) :
    on_move room pid r c value now = ⟨room, [], none⟩ := by
  unfold on_move
  rw [hp]
  dsimp only
  by_cases hs : room.game_started = false
  · rw [if_pos (by rw [hs] : (room.game_started = false))]
  · rw [if_neg hs, if_pos (by rw [he, Bool.or_true] : (p.finished || p.eliminated) = true)]

theorem on_move_players_other (room : Room) (actor : String) (r c : ℤ) (value : ℕ)
    (now : ℤ) (pid : String) (hne : pid ≠ actor) :
    lookupP (on_move room actor r c value now).room.players pid =
      lookupP room.players pid := by
  unfold on_move
  cases hl : lookupP room.players actor with
  | none => rfl
  | some p0 =>
    dsimp only
    by_cases hs : room.game_started = false
    · rw [if_pos hs]
    · rw [if_neg hs]
      by_cases hfe : (p0.finished || p0.eliminated) = true
      · rw [if_pos hfe]
      · rw [if_neg hfe]
        cases hrn : pyNorm 9 r with
        | none =>
          dsimp only
          exact lookupP_setPlayer_other hne
        | some ri =>
          cases hcn : pyNorm 9 c with
          | none =>
            dsimp only
            exact lookupP_setPlayer_other hne
          | some ci =>
            dsimp only
            repeat' split
            all_goals
              simp only [check_game_over_players, lookupP_setPlayer_other hne]

/-- One inbound `move` event: acting player, row, column, value, and the
wall-clock time at which it is handled. -/
structure MoveEv : Type where
  pid : String
  r : ℤ
  c : ℤ
  value : ℕ
  now : ℤ
deriving DecidableEq

/-- Fold a sequence of `move` events through `on_move`. -/
def runMoves (room : Room) : List MoveEv → Room
  | [] => room
  | e :: rest => runMoves (on_move room e.pid e.r e.c e.value e.now).room rest

/-- Whether the player bound to `pid` is currently marked eliminated. -/
def elimAt (room : Room) (pid : String) : Bool :=
  match lookupP room.players pid with
  | some p => p.eliminated
  | none => false

/-- How many events of a `move` sequence flip `pid`'s eliminated flag
from false to true. -/
def elimFlips (room : Room) (pid : String) : List MoveEv → ℕ
  | [] => 0
  | e :: rest =>
    (if elimAt room pid = false ∧
        elimAt (on_move room e.pid e.r e.c e.value e.now).room pid = true then 1 else 0) +
      elimFlips (on_move room e.pid e.r e.c e.value e.now).room pid rest

theorem elim_persists (room : Room) (pid : String) (e : MoveEv)
    (h : elimAt room pid = true) :
    elimAt (on_move room e.pid e.r e.c e.value e.now).room pid = true := by
  unfold elimAt at h ⊢
  cases hl : lookupP room.players pid with
  | none => rw [hl] at h; cases h
  | some p =>
    rw [hl] at h
    by_cases hact : pid = e.pid
    · rw [← hact, on_move_eliminated_noop room pid p e.r e.c e.value e.now hl h]
      rw [hl]
      exact h
    · rw [on_move_players_other room e.pid e.r e.c e.value e.now pid hact, hl]
      exact h

theorem elimFlips_zero_of_elim (pid : String) :
    ∀ (evs : List MoveEv) (room : Room), elimAt room pid = true →
      elimFlips room pid evs = 0 := by
  intro evs
  induction evs with
  | nil => intro room _; rfl
  | cons e rest ih =>
    intro room h
    unfold elimFlips
    rw [if_neg (by rw [h]; simp), ih _ (elim_persists room pid e h)]

theorem elimFlips_le_one (pid : String) :
    ∀ (evs : List MoveEv) (room : Room), elimFlips room pid evs ≤ 1 := by
  intro evs
  induction evs with
  | nil => intro room; exact Nat.zero_le 1
  | cons e rest ih =>
    intro room
    unfold elimFlips
    by_cases h2 : elimAt (on_move room e.pid e.r e.c e.value e.now).room pid = true
    · rw [elimFlips_zero_of_elim pid rest _ h2]
      split
      · omega
      · omega
    · rw [if_neg (by intro hc; exact h2 hc.2)]
      have := ih (on_move room e.pid e.r e.c e.value e.now).room
      omega

/-- C5.  An accepted move with a non-zero value different from the
solution's value increments the mover's mistake count and applies the
fixed −20 score penalty, and sets the eliminated flag exactly when the
new mistake count reaches 3; a move by an eliminated player is never
accepted (the handler returns with the room unchanged and nothing
emitted); elimination is permanent across any further move; and along
any sequence of move events a player's eliminated flag flips from false
to true at most once. -/
theorem C5_mistakes_elimination :
    (∀ (room : Room) (pid : String) (p : Player) (r c : ℤ) (ri ci : Fin 9)
        (value : ℕ) (now : ℤ),
      lookupP room.players pid = some p → room.game_started = true →
      p.finished = false → p.eliminated = false →
      pyNorm 9 r = some ri → pyNorm 9 c = some ci →
      value ≠ 0 → p.game_state.solution ri ci ≠ value →
      ∃ q : Player, lookupP (on_move room pid r c value now).room.players pid = some q ∧
        q.mistakes = p.mistakes + 1 ∧ q.score = p.score - 20 ∧
        (q.eliminated = true ↔ p.mistakes + 1 ≥ 3)) ∧
    (∀ (room : Room) (pid : String) (p : Player) (r c : ℤ) (value : ℕ) (now : ℤ),
      lookupP room.players pid = some p → p.eliminated = true →
      on_move room pid r c value now = ⟨room, [], none⟩) ∧
    (∀ (room : Room) (pid : String) (e : MoveEv), elimAt room pid = true →
      elimAt (on_move room e.pid e.r e.c e.value e.now).room pid = true) ∧
    (∀ (room : Room) (pid : String) (evs : List MoveEv), elimFlips room pid evs ≤ 1) := by
  refine ⟨?_, ?_, ?_, ?_⟩
  · intro room pid p r c ri ci value now hp hs hf he hr hc hval hsol
    obtain ⟨q, hq, _, _, _, _, _, hwrong, _, _⟩ :=
      on_move_accepted room pid p r c ri ci value now hp hs hf he hr hc
    obtain ⟨h1, h2, h3⟩ := hwrong hval hsol
    exact ⟨q, hq, h1, h2, h3⟩
  · intro room pid p r c value now hp he
    exact on_move_eliminated_noop room pid p r c value now hp he
  · intro room pid e h
    exact elim_persists room pid e h
  · intro room pid evs
    exact elimFlips_le_one pid evs room

theorem C5_witness :
    ∃ q : Player, lookupP (on_move demoRoom "A" 0 1 5 3).room.players "A" = some q ∧
      q.mistakes = (demoPlayer "A" "Alice").mistakes + 1 ∧
      q.score = (demoPlayer "A" "Alice").score - 20 ∧
      (q.eliminated = true ↔ (demoPlayer "A" "Alice").mistakes + 1 ≥ 3) :=
  C5_mistakes_elimination.1 demoRoom "A" (demoPlayer "A" "Alice") 0 1 0 1 5 3
    rfl rfl rfl rfl (by decide) (by decide) (by decide) (by decide)

theorem on_undo_step (room : Room) (pid : String) (p : Player) (h : List Board) (b : Board)
    (hp : lookupP room.players pid = some p)
    (hh : p.game_state.board_history = h ++ [b]) :
    ∃ q : Player, lookupP (on_undo room pid).room.players pid = some q ∧
      q.game_state.current_board = b ∧
      q.game_state.board_history = h ∧
      q.game_state.notes_board = p.game_state.notes_board ∧
      q.game_state.solution = p.game_state.solution ∧
      q.mistakes = p.mistakes ∧ q.score = p.score ∧ q.hints_used = p.hints_used ∧
      q.eliminated = p.eliminated ∧ q.finished = p.finished := by
  unfold on_undo
  rw [hp]
  dsimp only
  rw [hh, List.getLast?_concat]
  dsimp only
  rw [List.dropLast_concat]
  exact ⟨_, lookupP_setPlayer_same hp, rfl, rfl, rfl, rfl, rfl, rfl, rfl, rfl, rfl⟩

theorem on_undo_empty (room : Room) (pid : String) (p : Player)
    (hp : lookupP room.players pid = some p)
    (hh : p.game_state.board_history = []) :
    on_undo room pid = ⟨room, [Ev.errorMsg "Nothing to undo!"], none⟩ := by
  unfold on_undo
  rw [hp]
  dsimp only
  rw [hh]
  rfl

/-- Fold `n` undo events for `pid` through `on_undo`. -/
def runUndos (pid : String) : ℕ → Room → Room
  | 0, room => room
  | n + 1, room => runUndos pid n (on_undo room pid).room

/-- `e` would be accepted by `on_move` in `room`: known, active player,
started game, in-range indices. -/
def moveOk (room : Room) (e : MoveEv) : Bool :=
  (match lookupP room.players e.pid with
   | some p => !p.finished && !p.eliminated
   | none => false) &&
  room.game_started && (pyNorm 9 e.r).isSome && (pyNorm 9 e.c).isSome

/-- Every event of the sequence is a move by `pid`, accepted in the
state in which it arrives. -/
def movesOk (pid : String) : Room → List MoveEv → Bool
  | _, [] => true
  | room, e :: rest =>
    (e.pid == pid) && moveOk room e &&
      movesOk pid (on_move room e.pid e.r e.c e.value e.now).room rest

theorem runUndos_drains (pid : String) :
    ∀ (hist : List Board) (room : Room) (q : Player),
      lookupP room.players pid = some q →
      q.game_state.board_history = hist →
      ∃ z : Player, lookupP (runUndos pid hist.length room).players pid = some z ∧
        z.game_state.current_board = hist.headD q.game_state.current_board ∧
        z.game_state.board_history = [] ∧
        z.mistakes = q.mistakes ∧ z.score = q.score ∧ z.hints_used = q.hints_used := by
  intro hist
  induction hist using List.reverseRecOn with
  | nil =>
    intro room q hq hh
    exact ⟨q, hq, rfl, hh, rfl, rfl, rfl⟩
  | append_singleton l a ih =>
    intro room q hq hh
    obtain ⟨q1, hq1, hb1, hh1, _, _, hm1, hs1, hu1, _, _⟩ :=
      on_undo_step room pid q l a hq hh
    obtain ⟨z, hz, hbz, hhz, hmz, hsz, huz⟩ := ih (on_undo room pid).room q1 hq1 hh1
    have hlen : (l ++ [a]).length = l.length + 1 := by simp
    rw [hlen]
    refine ⟨z, hz, ?_, hhz, hmz.trans hm1, hsz.trans hs1, huz.trans hu1⟩
    rw [hbz, hb1]
    cases l with
    | nil => rfl
    | cons x t => rfl

theorem runMoves_history (pid : String) :
    ∀ (evs : List MoveEv) (room : Room) (p : Player),
      lookupP room.players pid = some p →
      movesOk pid room evs = true →
      ∃ (q : Player) (hist2 : List Board),
        lookupP (runMoves room evs).players pid = some q ∧
        q.game_state.board_history = p.game_state.board_history ++ hist2 ∧
        hist2.length = evs.length ∧
        (hist2 = [] ∨ ∀ d : Board, hist2.headD d = p.game_state.current_board) := by
  intro evs
  induction evs with
  | nil =>
    intro room p hp _
    exact ⟨p, [], hp, by simp, rfl, Or.inl rfl⟩
  | cons e rest ih =>
    intro room p hp hok
    unfold movesOk at hok
    simp only [Bool.and_eq_true] at hok
    obtain ⟨⟨hpid, hmok⟩, hrest⟩ := hok
    have hpid2 : e.pid = pid := by simpa using hpid
    unfold moveOk at hmok
    simp only [Bool.and_eq_true] at hmok
    obtain ⟨⟨⟨hmatch, hstart⟩, hrn⟩, hcn⟩ := hmok
    subst hpid2
    rw [hp] at hmatch
    simp only [Bool.and_eq_true, Bool.not_eq_true'] at hmatch
    obtain ⟨hf, he⟩ := hmatch
    obtain ⟨ri, hri⟩ := Option.isSome_iff_exists.mp hrn
    obtain ⟨ci, hci⟩ := Option.isSome_iff_exists.mp hcn
    obtain ⟨q, hq, hqb, _, hqh, _, _, _, _, _⟩ :=
      on_move_accepted room e.pid p e.r e.c ri ci e.value e.now hp hstart hf he hri hci
    have hstep : runMoves room (e :: rest) =
        runMoves (on_move room e.pid e.r e.c e.value e.now).room rest := rfl
    rw [hstep]
    obtain ⟨z, hist3, hz, hh3, hlen3, _⟩ :=
      ih (on_move room e.pid e.r e.c e.value e.now).room q hq hrest
    refine ⟨z, p.game_state.current_board :: hist3, ?_, ?_, ?_, ?_⟩
    · exact hz
    · rw [hh3, hqh, List.append_assoc]
      rfl
    · simp [hlen3]
    · exact Or.inr fun d => rfl

/-- C6.  Starting from a player whose board history is empty, after any
sequence of N accepted moves, N sequential undos restore that player's
board to its exact state before the first move and leave an empty
history; the (N+1)-th undo reports "Nothing to undo!" and changes
nothing; and the undos leave the mistake count and score exactly as
they stood after the moves (undo never touches them). -/
theorem C6_undo_restores (room : Room) (pid : String) (p : Player) (evs : List MoveEv)
    (hp : lookupP room.players pid = some p)
    (hh : p.game_state.board_history = [])
    (hok : movesOk pid room evs = true) :
    ∃ q z : Player,
      lookupP (runMoves room evs).players pid = some q ∧
      lookupP (runUndos pid evs.length (runMoves room evs)).players pid = some z ∧
      z.game_state.current_board = p.game_state.current_board ∧
      z.game_state.board_history = [] ∧
      z.mistakes = q.mistakes ∧ z.score = q.score ∧
      on_undo (runUndos pid evs.length (runMoves room evs)) pid =
        ⟨runUndos pid evs.length (runMoves room evs),
          [Ev.errorMsg "Nothing to undo!"], none⟩ := by
  obtain ⟨q, hist2, hq, hqh, hlen, hhead⟩ := runMoves_history pid evs room p hp hok
  rw [hh, List.nil_append] at hqh
  obtain ⟨z, hz, hzb, hzh, hzm, hzs, _⟩ :=
    runUndos_drains pid hist2 (runMoves room evs) q hq hqh
  rw [← hlen]
  refine ⟨q, z, hq, hz, ?_, hzh, hzm, hzs, ?_⟩
  · rcases hhead with hnil | hhead
    · subst hnil
      have hevs : evs = [] := List.length_eq_zero.mp hlen.symm
      subst hevs
      have hq2 : lookupP room.players pid = some q := hq
      have hqp : q = p := by
        rw [hp] at hq2
        exact (Option.some.inj hq2).symm
      rw [hzb, hqp]
      rfl
    · rw [hzb, hhead q.game_state.current_board]
  · exact on_undo_empty _ pid z hz hzh

theorem C6_witness :
    ∃ q z : Player,
      lookupP (runMoves demoRoom [⟨"A", 0, 0, 5, 0⟩]).players "A" = some q ∧
      lookupP (runUndos "A" 1 (runMoves demoRoom [⟨"A", 0, 0, 5, 0⟩])).players "A" =
        some z ∧
      z.game_state.current_board = (demoPlayer "A" "Alice").game_state.current_board ∧
      z.game_state.board_history = [] ∧
      z.mistakes = q.mistakes ∧ z.score = q.score ∧
      on_undo (runUndos "A" 1 (runMoves demoRoom [⟨"A", 0, 0, 5, 0⟩])) "A" =
        ⟨runUndos "A" 1 (runMoves demoRoom [⟨"A", 0, 0, 5, 0⟩]),
          [Ev.errorMsg "Nothing to undo!"], none⟩ :=
  C6_undo_restores demoRoom "A" (demoPlayer "A" "Alice") [⟨"A", 0, 0, 5, 0⟩]
    rfl rfl (by decide)

theorem getD_mem_of_ne_nil {α : Type} (l : List α) (k : ℕ) (d : α) (h : l ≠ []) :
    l.getD (k % l.length) d ∈ l := by
  have hlen : 0 < l.length := List.length_pos.mpr h
  have hidx : k % l.length < l.length := Nat.mod_lt _ hlen
  rw [List.getD_eq_getElem?_getD, List.getElem?_eq_getElem hidx]
  simp

theorem on_hint_exhausted (room : Room) (pid : String) (p : Player) (k : ℕ)
    (hp : lookupP room.players pid = some p) (h3 : p.hints_used ≥ 3) :
    on_hint room pid k = ⟨room, [Ev.errorMsg "No hints left!"], none⟩ := by
  unfold on_hint
  rw [hp]
  dsimp only
  rw [if_neg (by omega : ¬ p.hints_used < 3)]

theorem on_hint_no_empty (room : Room) (pid : String) (p : Player) (k : ℕ)
    (hp : lookupP room.players pid = some p) (hlt : p.hints_used < 3)
    (hfull : ∀ q : Cell, p.game_state.current_board q.1 q.2 ≠ 0) :
    on_hint room pid k = ⟨room, [Ev.errorMsg "No empty cells for a hint!"], none⟩ := by
  unfold on_hint
  rw [hp]
  dsimp only
  rw [if_pos hlt]
  have hnil : cellsRM.filter
      (fun q => p.game_state.current_board q.1 q.2 == 0) = [] := by
    rw [List.filter_eq_nil_iff]
    intro a _
    simp only [beq_iff_eq]
    exact hfull a
  rw [if_neg (by rw [hnil]; exact not_not_intro rfl)]

theorem on_hint_success (room : Room) (pid : String) (p : Player) (k : ℕ)
    (hp : lookupP room.players pid = some p) (hlt : p.hints_used < 3)
    (hne : cellsRM.filter (fun q => p.game_state.current_board q.1 q.2 == 0) ≠ []) :
    ∃ rc : Cell,
      p.game_state.current_board rc.1 rc.2 = 0 ∧
      ∃ q2 : Player, lookupP (on_hint room pid k).room.players pid = some q2 ∧
        q2.game_state.current_board =
          setCell p.game_state.current_board rc (p.game_state.solution rc.1 rc.2) ∧
        q2.game_state.notes_board = p.game_state.notes_board ∧
        q2.game_state.board_history = p.game_state.board_history ∧
        q2.hints_used = p.hints_used + 1 ∧
        q2.score = p.score + 25 ∧
        q2.mistakes = p.mistakes ∧
        (on_hint room pid k).events =
          [Ev.currentPlayers,
            Ev.hintGiven rc.1 rc.2 (p.game_state.solution rc.1 rc.2),
            Ev.gameStateUpdate] ∧
        (on_hint room pid k).err = none := by
  unfold on_hint
  rw [hp]
  dsimp only
  rw [if_pos hlt, if_pos hne]
  set ec := cellsRM.filter (fun q => p.game_state.current_board q.1 q.2 == 0) with hec
  set rc := ec.getD (k % ec.length) ((0 : Fin 9), (0 : Fin 9)) with hrc
  have hmem : rc ∈ ec := getD_mem_of_ne_nil ec k _ hne
  have hzero : p.game_state.current_board rc.1 rc.2 = 0 := by
    have := List.of_mem_filter hmem
    simpa using this
  exact ⟨rc, hzero, _, lookupP_setPlayer_same hp, rfl, rfl, rfl, rfl, rfl, rfl, rfl, rfl⟩

/-- `hints_used` of the player bound to `pid` (0 when unknown). -/
def hintsAt (room : Room) (pid : String) : ℕ :=
  match lookupP room.players pid with
  | some p => p.hints_used
  | none => 0

/-- A `hint_given` emission marks a successful hint request. -/
def isHintGiven : Ev → Bool
  | Ev.hintGiven _ _ _ => true
  | _ => false

/-- Number of successful hint requests along a sequence of hint events
(each `k` is the randomness of one `random.choice`). -/
def hintSuccs (room : Room) (pid : String) : List ℕ → ℕ
  | [] => 0
  | k :: rest =>
    (if (on_hint room pid k).events.any isHintGiven then 1 else 0) +
      hintSuccs (on_hint room pid k).room pid rest

theorem on_hint_unknown (room : Room) (pid : String) (k : ℕ)
    (hl : lookupP room.players pid = none) :
    on_hint room pid k = ⟨room, [], none⟩ := by
  unfold on_hint
  rw [hl]

theorem hint_step (room : Room) (pid : String) (k : ℕ) :
    ((on_hint room pid k).events.any isHintGiven = true ∧
      hintsAt room pid ≤ 2 ∧
      hintsAt (on_hint room pid k).room pid = hintsAt room pid + 1) ∨
    ((on_hint room pid k).events.any isHintGiven = false ∧
      hintsAt (on_hint room pid k).room pid = hintsAt room pid) := by
  cases hl : lookupP room.players pid with
  | none =>
    right
    rw [on_hint_unknown room pid k hl]
    exact ⟨rfl, rfl⟩
  | some p =>
    by_cases hlt : p.hints_used < 3
    · by_cases hne : cellsRM.filter
          (fun q => p.game_state.current_board q.1 q.2 == 0) ≠ []
      · left
        obtain ⟨rc, _, q2, hq2, _, _, _, hhu, _, _, hev, _⟩ :=
          on_hint_success room pid p k hl hlt hne
        refine ⟨?_, ?_, ?_⟩
        · rw [hev]
          simp [isHintGiven]
        · unfold hintsAt
          rw [hl]
          dsimp only
          omega
        · unfold hintsAt
          rw [hq2, hl]
          dsimp only
          exact hhu
      · right
        have hnil := not_not.mp hne
        have hfull : ∀ q : Cell, p.game_state.current_board q.1 q.2 ≠ 0 := by
          intro q hz
          have hqmem : q ∈ cellsRM.filter
              (fun x => p.game_state.current_board x.1 x.2 == 0) :=
            List.mem_filter.mpr ⟨mem_cellsRM q, by simp [hz]⟩
          rw [hnil] at hqmem
          cases hqmem
        rw [on_hint_no_empty room pid p k hl hlt hfull]
        exact ⟨rfl, rfl⟩
    · right
      rw [on_hint_exhausted room pid p k hl (by omega)]
      exact ⟨rfl, rfl⟩

theorem hintSuccs_bounded (pid : String) :
    ∀ (ks : List ℕ) (room : Room), hintsAt room pid ≤ 3 →
      hintSuccs room pid ks + hintsAt room pid ≤ 3 := by
  intro ks
  induction ks with
  | nil => intro room h; simpa [hintSuccs] using h
  | cons k rest ih =>
    intro room h
    unfold hintSuccs
    rcases hint_step room pid k with ⟨hs, hle, hinc⟩ | ⟨hs, hsame⟩
    · rw [if_pos hs]
      have := ih (on_hint room pid k).room (by omega)
      omega
    · rw [if_neg (by rw [hs]; exact Bool.false_ne_true)]
      have := ih (on_hint room pid k).room (by omega)
      omega

/-- C7.  Per player at most 3 hint requests succeed: a request with
`hints_used ≥ 3` is rejected with "No hints left!" and changes nothing;
a request with no empty cell is rejected with "No empty cells for a
hint!" and changes nothing; a successful request picks a currently
empty cell (never overwriting a filled one), writes the solution's
value there, increments `hints_used` and adds the fixed +25 score
bonus; and along any sequence of hint requests a player starting at 0
used hints gets at most 3 successes. -/
theorem C7_hints_capped :
    (∀ (room : Room) (pid : String) (p : Player) (k : ℕ),
      lookupP room.players pid = some p → p.hints_used ≥ 3 →
      on_hint room pid k = ⟨room, [Ev.errorMsg "No hints left!"], none⟩) ∧
    (∀ (room : Room) (pid : String) (p : Player) (k : ℕ),
      lookupP room.players pid = some p → p.hints_used < 3 →
      (∀ q : Cell, p.game_state.current_board q.1 q.2 ≠ 0) →
      on_hint room pid k = ⟨room, [Ev.errorMsg "No empty cells for a hint!"], none⟩) ∧
    (∀ (room : Room) (pid : String) (p : Player) (k : ℕ),
      lookupP room.players pid = some p → p.hints_used < 3 →
      cellsRM.filter (fun q => p.game_state.current_board q.1 q.2 == 0) ≠ [] →
      ∃ rc : Cell,
        p.game_state.current_board rc.1 rc.2 = 0 ∧
        ∃ q2 : Player, lookupP (on_hint room pid k).room.players pid = some q2 ∧
          q2.game_state.current_board =
            setCell p.game_state.current_board rc (p.game_state.solution rc.1 rc.2) ∧
          q2.game_state.notes_board = p.game_state.notes_board ∧
          q2.game_state.board_history = p.game_state.board_history ∧
          q2.hints_used = p.hints_used + 1 ∧
          q2.score = p.score + 25 ∧
          q2.mistakes = p.mistakes ∧
          (on_hint room pid k).events =
            [Ev.currentPlayers,
              Ev.hintGiven rc.1 rc.2 (p.game_state.solution rc.1 rc.2),
              Ev.gameStateUpdate] ∧
          (on_hint room pid k).err = none) ∧
    (∀ (room : Room) (pid : String) (ks : List ℕ), hintsAt room pid = 0 →
      hintSuccs room pid ks ≤ 3) := by
  refine ⟨?_, ?_, ?_, ?_⟩
  · intro room pid p k hp h3
    exact on_hint_exhausted room pid p k hp h3
  · intro room pid p k hp hlt hfull
    exact on_hint_no_empty room pid p k hp hlt hfull
  · intro room pid p k hp hlt hne
    exact on_hint_success room pid p k hp hlt hne
  · intro room pid ks h0
    have := hintSuccs_bounded pid ks room (by omega)
    omega

theorem C7_witness :
    ∃ rc : Cell,
      (demoPlayer "A" "Alice").game_state.current_board rc.1 rc.2 = 0 ∧
      ∃ q2 : Player, lookupP (on_hint demoRoom "A" 5).room.players "A" = some q2 ∧
        q2.game_state.current_board =
          setCell (demoPlayer "A" "Alice").game_state.current_board rc
            ((demoPlayer "A" "Alice").game_state.solution rc.1 rc.2) ∧
        q2.game_state.notes_board = (demoPlayer "A" "Alice").game_state.notes_board ∧
        q2.game_state.board_history =
          (demoPlayer "A" "Alice").game_state.board_history ∧
        q2.hints_used = (demoPlayer "A" "Alice").hints_used + 1 ∧
        q2.score = (demoPlayer "A" "Alice").score + 25 ∧
        q2.mistakes = (demoPlayer "A" "Alice").mistakes ∧
        (on_hint demoRoom "A" 5).events =
          [Ev.currentPlayers,
            Ev.hintGiven rc.1 rc.2
              ((demoPlayer "A" "Alice").game_state.solution rc.1 rc.2),
            Ev.gameStateUpdate] ∧
        (on_hint demoRoom "A" 5).err = none :=
  C7_hints_capped.2.2.1 demoRoom "A" (demoPlayer "A" "Alice") 5
    rfl (by decide) (by decide)

/-- Player A's room after A stored the candidate notes `[1, 2]` on the
empty cell (0,0). -/
def notesRoom : Room := (on_notes demoRoom "A" 0 0 [1, 2]).room

/-- C8 counterexample.  A hint fills the empty cell (0,0) (which held
notes `[1, 2]`) with its solution value 1 — a non-empty value — but
does not clear the cell's notes: after the hint the cell holds value 1
and still the notes `[1, 2]`, contradicting the claimed invariant. -/
theorem C8_counterexample :
    Option.map (fun q => q.game_state.current_board 0 0)
      (lookupP (on_hint notesRoom "A" 0).room.players "A") = some 1 ∧
    Option.map (fun q => q.game_state.notes_board 0 0)
      (lookupP (on_hint notesRoom "A" 0).room.players "A") = some [1, 2] := by
  decide

/-- C8 (amended).  `on_move` clears the notes of the cell it writes
(for any value), but `on_hint` does not touch the notes board at all:
the notes of a hint-filled cell survive, so after a hint a cell can
hold a freshly written non-empty value together with its pre-existing
notes. -/
theorem C8_notes_clearing :
    (∀ (room : Room) (pid : String) (p : Player) (r c : ℤ) (ri ci : Fin 9)
        (value : ℕ) (now : ℤ),
      lookupP room.players pid = some p → room.game_started = true →
      p.finished = false → p.eliminated = false →
      pyNorm 9 r = some ri → pyNorm 9 c = some ci →
      ∃ q : Player, lookupP (on_move room pid r c value now).room.players pid = some q ∧
        q.game_state.notes_board = setCell p.game_state.notes_board (ri, ci) [] ∧
        q.game_state.notes_board ri ci = []) ∧
    (∀ (room : Room) (pid : String) (p : Player) (k : ℕ),
      lookupP room.players pid = some p → p.hints_used < 3 →
      cellsRM.filter (fun q => p.game_state.current_board q.1 q.2 == 0) ≠ [] →
      ∃ (rc : Cell) (q2 : Player),
        lookupP (on_hint room pid k).room.players pid = some q2 ∧
        p.game_state.current_board rc.1 rc.2 = 0 ∧
        q2.game_state.current_board rc.1 rc.2 = p.game_state.solution rc.1 rc.2 ∧
        q2.game_state.notes_board = p.game_state.notes_board) := by
  constructor
  · intro room pid p r c ri ci value now hp hs hf he hr hc
    obtain ⟨q, hq, _, hn, _, _, _, _, _, _⟩ :=
      on_move_accepted room pid p r c ri ci value now hp hs hf he hr hc
    refine ⟨q, hq, hn, ?_⟩
    rw [hn]
    exact setCell_same p.game_state.notes_board (ri, ci) []
  · intro room pid p k hp hlt hne
    obtain ⟨rc, hz, q2, hq2, hb, hnotes, _, _, _, _, _, _⟩ :=
      on_hint_success room pid p k hp hlt hne
    refine ⟨rc, q2, hq2, hz, ?_, hnotes⟩
    rw [hb]
    exact setCell_same p.game_state.current_board rc _

theorem C8_witness :
    ∃ q : Player, lookupP (on_move demoRoom "B" 4 4 7 0).room.players "B" = some q ∧
      q.game_state.notes_board =
        setCell (demoPlayer "B" "Bob").game_state.notes_board (4, 4) [] ∧
      q.game_state.notes_board 4 4 = [] :=
  C8_notes_clearing.1 demoRoom "B" (demoPlayer "B" "Bob") 4 4 4 4 7 0
    rfl rfl rfl rfl (by decide) (by decide)

theorem lookupP_append_new :
    ∀ (ps : List (String × Player)) (k : String) (v : Player),
      lookupP ps k = none → lookupP (ps ++ [(k, v)]) k = some v := by
  intro ps k v h
  induction ps with
  | nil => simp [lookupP]
  | cons q rest ih =>
    simp only [lookupP, List.find?_cons] at h ⊢
    cases hq : (q.1 == k) with
    | true => rw [hq] at h; simp at h
    | false =>
      rw [hq] at h
      rw [List.cons_append, List.find?_cons, hq]
      exact ih h

theorem lookupP_append_old :
    ∀ (ps l : List (String × Player)) (pid : String) (q : Player),
      lookupP ps pid = some q → lookupP (ps ++ l) pid = some q := by
  intro ps l pid q h
  induction ps with
  | nil => simp [lookupP] at h
  | cons x rest ih =>
    simp only [lookupP, List.find?_cons] at h ⊢
    cases hx : (x.1 == pid) with
    | true =>
      rw [hx] at h
      rw [List.cons_append, List.find?_cons, hx]
      exact h
    | false =>
      rw [hx] at h
      rw [List.cons_append, List.find?_cons, hx]
      exact ih h

/-- C9 counterexample.  There is no shared room board: player A's
accepted move on (0,0) changes A's own board but leaves B's board
untouched, so after the move the two players of the same room see
different boards — a single room-owned board visible to all players
would make both reads agree. -/
theorem C9_counterexample :
    Option.map (fun q => q.game_state.current_board 0 0)
      (lookupP (on_move demoRoom "A" 0 0 5 0).room.players "A") = some 5 ∧
    Option.map (fun q => q.game_state.current_board 0 0)
      (lookupP (on_move demoRoom "A" 0 0 5 0).room.players "B") = some 0 := by
  decide

/-- C9 (amended).  Boards are strictly per player: `join_room_route`
attaches a fresh `GameState` (own board copy of the room's puzzle) to
every joining player and leaves all existing players untouched; an
accepted move mutates only the acting player's state, never another
player's; and the room reaches Over exactly through
`check_game_over` when every player is finished or eliminated. -/
theorem C9_per_player_boards :
    (∀ (room : Room) (name npid : String),
      room.game_over = false → room.game_started = false →
      lookupP room.players npid = none →
      ∃ room2 : Room, join_room_route room name npid = Except.ok room2 ∧
        lookupP room2.players npid =
          some (Player.init npid name room.puzzle room.solution) ∧
        ∀ (pid2 : String) (q : Player), lookupP room.players pid2 = some q →
          lookupP room2.players pid2 = some q) ∧
    (∀ (room : Room) (actor : String) (r c : ℤ) (value : ℕ) (now : ℤ) (pid : String),
      pid ≠ actor →
      lookupP (on_move room actor r c value now).room.players pid =
        lookupP room.players pid) ∧
    (∀ room : Room, room.game_started = true →
      (room.players.all fun q => q.2.finished || q.2.eliminated) = true →
      (check_game_over room).1.game_over = true ∧
      (check_game_over room).1.game_started = false) := by
  refine ⟨?_, ?_, ?_⟩
  · intro room name npid hover hstart hnew
    refine ⟨{ room with players := room.players ++
        [(npid, Player.init npid name room.puzzle room.solution)] }, ?_, ?_, ?_⟩
    · unfold join_room_route
      rw [if_neg (by rw [hover]; exact Bool.false_ne_true),
        if_neg (by rw [hstart]; exact Bool.false_ne_true)]
    · exact lookupP_append_new room.players npid _ hnew
    · intro pid2 q hq
      exact lookupP_append_old room.players _ pid2 q hq
  · intro room actor r c value now pid hne
    exact on_move_players_other room actor r c value now pid hne
  · intro room hs hall
    unfold check_game_over
    rw [if_neg (by rw [hs]; exact fun hc => absurd hc (by decide)), if_pos hall]
    exact ⟨rfl, rfl⟩

theorem C9_witness :
    lookupP (on_move demoRoom "A" 1 1 5 0).room.players "B" =
      lookupP demoRoom.players "B" :=
  C9_per_player_boards.2.1 demoRoom "A" 1 1 5 0 "B" (by decide)

theorem pyNorm_eq_none_iff {i : ℤ} : pyNorm 9 i = none ↔ 9 ≤ i ∨ i < -9 := by
  unfold pyNorm
  split_ifs with h1 h2
  · have hno : ¬(9 ≤ i ∨ i < -9) := by omega
    simp [hno]
  · have hno : ¬(9 ≤ i ∨ i < -9) := by omega
    simp [hno]
  · have hyes : 9 ≤ i ∨ i < -9 := by omega
    simp [hyes]

theorem pyNorm_nonneg {i : ℤ} (h1 : 0 ≤ i) (h2 : i < 9) :
    ∃ ri : Fin 9, pyNorm 9 i = some ri ∧ (ri.val : ℤ) = i := by
  unfold pyNorm
  split_ifs with ha hb
  · refine ⟨_, rfl, ?_⟩
    dsimp only
    rw [Int.toNat_of_nonneg (by omega)]
  · exact absurd (by omega : 0 ≤ i ∧ i < ((9 : ℕ) : ℤ)) ha
  · exact absurd (by omega : 0 ≤ i ∧ i < ((9 : ℕ) : ℤ)) ha

theorem pyNorm_neg {i : ℤ} (h1 : -9 ≤ i) (h2 : i < 0) :
    ∃ ri : Fin 9, pyNorm 9 i = some ri ∧ (ri.val : ℤ) = i + 9 := by
  unfold pyNorm
  split_ifs with ha hb
  · exact absurd ha (by omega)
  · refine ⟨_, rfl, ?_⟩
    dsimp only
    rw [Int.toNat_of_nonneg (by omega)]
    omega
  · exact absurd (by omega : -((9 : ℕ) : ℤ) ≤ i ∧ i < 0) hb

theorem on_move_index_error (room : Room) (pid : String) (p : Player) (r c : ℤ)
    (value : ℕ) (now : ℤ)
    (hp : lookupP room.players pid = some p)
    (hs : room.game_started = true)
    (hf : p.finished = false) (he : p.eliminated = false)
    (hout : pyNorm 9 r = none ∨ pyNorm 9 c = none) :
    (on_move room pid r c value now).err = some PyErr.indexError ∧
    (on_move room pid r c value now).events = [] ∧
    ∃ q : Player, lookupP (on_move room pid r c value now).room.players pid = some q ∧
      q.game_state.current_board = p.game_state.current_board ∧
      q.game_state.notes_board = p.game_state.notes_board ∧
      q.game_state.board_history =
        p.game_state.board_history ++ [p.game_state.current_board] := by
  unfold on_move
  rw [hp]
  dsimp only
  rw [hs, hf, he]
  simp only [show (true = false) = False from by simp,
    show ((false || false) = true) = False from by simp, if_false]
  cases hrn : pyNorm 9 r with
  | none =>
    dsimp only
    exact ⟨rfl, rfl, _, lookupP_setPlayer_same hp, rfl, rfl, rfl⟩
  | some ri =>
    cases hcn : pyNorm 9 c with
    | none =>
      dsimp only
      exact ⟨rfl, rfl, _, lookupP_setPlayer_same hp, rfl, rfl, rfl⟩
    | some ci =>
      rcases hout with h | h
      · rw [hrn] at h; cases h
      · rw [hcn] at h; cases h

theorem on_notes_index_error (room : Room) (pid : String) (p : Player) (r c : ℤ)
    (notes : List ℕ)
    (hp : lookupP room.players pid = some p)
    (hout : pyNorm 9 r = none ∨ pyNorm 9 c = none) :
    on_notes room pid r c notes = ⟨room, [], some PyErr.indexError⟩ := by
  unfold on_notes
  rw [hp]
  dsimp only
  cases hrn : pyNorm 9 r with
  | none => rfl
  | some ri =>
    cases hcn : pyNorm 9 c with
    | none => rfl
    | some ci =>
      rcases hout with h | h
      · rw [hrn] at h; cases h
      · rw [hcn] at h; cases h

theorem on_notes_applied (room : Room) (pid : String) (p : Player) (r c : ℤ)
    (ri ci : Fin 9) (notes : List ℕ)
    (hp : lookupP room.players pid = some p)
    (hr : pyNorm 9 r = some ri) (hc : pyNorm 9 c = some ci) :
    (on_notes room pid r c notes).err = none ∧
    ∃ q : Player, lookupP (on_notes room pid r c notes).room.players pid = some q ∧
      q.game_state.notes_board = setCell p.game_state.notes_board (ri, ci) notes ∧
      q.game_state.current_board = p.game_state.current_board := by
  unfold on_notes
  rw [hp]
  dsimp only
  rw [hr, hc]
  dsimp only
  exact ⟨rfl, _, lookupP_setPlayer_same hp, rfl, rfl⟩

theorem pyNorm_wrap (i : ℤ) (hl : -9 ≤ i) (hr : i < 9) :
    ∃ ri : Fin 9, pyNorm 9 i = some ri ∧
      (0 ≤ i → (ri.val : ℤ) = i) ∧ (i < 0 → (ri.val : ℤ) = i + 9) := by
  by_cases h0 : 0 ≤ i
  · obtain ⟨ri, h, hv⟩ := pyNorm_nonneg h0 hr
    exact ⟨ri, h, fun _ => hv, fun hc => absurd h0 (by omega)⟩
  · obtain ⟨ri, h, hv⟩ := pyNorm_neg hl (by omega)
    exact ⟨ri, h, fun hc => absurd hc h0, fun _ => hv⟩

/-- C10 counterexample.  The claim says any negative row or column
index is silently accepted and wraps from the end; but Python raises
`IndexError` for indices below −9 on a 9-element list: a move or notes
event with row −10 raises instead of being accepted. -/
theorem C10_counterexample :
    (on_move demoRoom "A" (-10) 0 5 0).err = some PyErr.indexError ∧
    (on_notes demoRoom "A" (-10) 2 [3]).err = some PyErr.indexError := by
  decide

/-- C10 (amended).  For move and notes events from a known player in a
started room, no bounds check rejects the request: an index of 9 or
more — or of −10 or less — raises an uncaught `IndexError` (for moves,
after the history snapshot was already pushed), while an index in
−9..−1 is silently accepted and reads/writes the cell counted from the
end of the row or column (index + 9). -/
theorem C10_index_handling :
    (∀ (room : Room) (pid : String) (p : Player) (r c : ℤ) (value : ℕ) (now : ℤ),
      lookupP room.players pid = some p → room.game_started = true →
      p.finished = false → p.eliminated = false →
      (9 ≤ r ∨ r < -9 ∨ 9 ≤ c ∨ c < -9) →
      (on_move room pid r c value now).err = some PyErr.indexError ∧
      (on_move room pid r c value now).events = [] ∧
      ∃ q : Player, lookupP (on_move room pid r c value now).room.players pid = some q ∧
        q.game_state.current_board = p.game_state.current_board ∧
        q.game_state.board_history =
          p.game_state.board_history ++ [p.game_state.current_board]) ∧
    (∀ (room : Room) (pid : String) (p : Player) (r c : ℤ) (value : ℕ) (now : ℤ),
      lookupP room.players pid = some p → room.game_started = true →
      p.finished = false → p.eliminated = false →
      -9 ≤ r → r < 9 → -9 ≤ c → c < 9 →
      ∃ (ri ci : Fin 9) (q : Player),
        pyNorm 9 r = some ri ∧ pyNorm 9 c = some ci ∧
        (0 ≤ r → (ri.val : ℤ) = r) ∧ (r < 0 → (ri.val : ℤ) = r + 9) ∧
        (0 ≤ c → (ci.val : ℤ) = c) ∧ (c < 0 → (ci.val : ℤ) = c + 9) ∧
        lookupP (on_move room pid r c value now).room.players pid = some q ∧
        q.game_state.current_board =
          setCell p.game_state.current_board (ri, ci) value) ∧
    (∀ (room : Room) (pid : String) (p : Player) (r c : ℤ) (notes : List ℕ),
      lookupP room.players pid = some p →
      (9 ≤ r ∨ r < -9 ∨ 9 ≤ c ∨ c < -9) →
      on_notes room pid r c notes = ⟨room, [], some PyErr.indexError⟩) ∧
    (∀ (room : Room) (pid : String) (p : Player) (r c : ℤ) (notes : List ℕ),
      lookupP room.players pid = some p →
      -9 ≤ r → r < 9 → -9 ≤ c → c < 9 →
      ∃ (ri ci : Fin 9) (q : Player),
        pyNorm 9 r = some ri ∧ pyNorm 9 c = some ci ∧
        (0 ≤ r → (ri.val : ℤ) = r) ∧ (r < 0 → (ri.val : ℤ) = r + 9) ∧
        (0 ≤ c → (ci.val : ℤ) = c) ∧ (c < 0 → (ci.val : ℤ) = c + 9) ∧
        lookupP (on_notes room pid r c notes).room.players pid = some q ∧
        q.game_state.notes_board =
          setCell p.game_state.notes_board (ri, ci) notes) := by
  have hout : ∀ r c : ℤ, (9 ≤ r ∨ r < -9 ∨ 9 ≤ c ∨ c < -9) →
      pyNorm 9 r = none ∨ pyNorm 9 c = none := by
    intro r c h
    rcases h with h | h | h | h
    · exact Or.inl (pyNorm_eq_none_iff.mpr (Or.inl h))
    · exact Or.inl (pyNorm_eq_none_iff.mpr (Or.inr h))
    · exact Or.inr (pyNorm_eq_none_iff.mpr (Or.inl h))
    · exact Or.inr (pyNorm_eq_none_iff.mpr (Or.inr h))
  refine ⟨?_, ?_, ?_, ?_⟩
  · intro room pid p r c value now hp hs hf he hb
    obtain ⟨herr, hev, q, hq, hcb, hbh⟩ :=
      on_move_index_error room pid p r c value now hp hs hf he (hout r c hb)
    exact ⟨herr, hev, q, hq, hcb, hbh.2⟩
  · intro room pid p r c value now hp hs hf he hr1 hr2 hc1 hc2
    obtain ⟨ri, hri, hr0, hrneg⟩ := pyNorm_wrap r hr1 hr2
    obtain ⟨ci, hci, hc0, hcneg⟩ := pyNorm_wrap c hc1 hc2
    obtain ⟨q, hq, hcb, _, _, _, _, _, _, _⟩ :=
      on_move_accepted room pid p r c ri ci value now hp hs hf he hri hci
    exact ⟨ri, ci, q, hri, hci, hr0, hrneg, hc0, hcneg, hq, hcb⟩
  · intro room pid p r c notes hp hb
    exact on_notes_index_error room pid p r c notes hp (hout r c hb)
  · intro room pid p r c notes hp hr1 hr2 hc1 hc2
    obtain ⟨ri, hri, hr0, hrneg⟩ := pyNorm_wrap r hr1 hr2
    obtain ⟨ci, hci, hc0, hcneg⟩ := pyNorm_wrap c hc1 hc2
    obtain ⟨_, q, hq, hnb, _⟩ := on_notes_applied room pid p r c ri ci notes hp hri hci
    exact ⟨ri, ci, q, hri, hci, hr0, hrneg, hc0, hcneg, hq, hnb⟩

theorem C10_witness :
    ∃ (ri ci : Fin 9) (q : Player),
      pyNorm 9 (-1) = some ri ∧ pyNorm 9 (-2) = some ci ∧
      (0 ≤ (-1 : ℤ) → (ri.val : ℤ) = -1) ∧ ((-1 : ℤ) < 0 → (ri.val : ℤ) = -1 + 9) ∧
      (0 ≤ (-2 : ℤ) → (ci.val : ℤ) = -2) ∧ ((-2 : ℤ) < 0 → (ci.val : ℤ) = -2 + 9) ∧
      lookupP (on_notes demoRoom "A" (-1) (-2) [7]).room.players "A" = some q ∧
      q.game_state.notes_board =
        setCell (demoPlayer "A" "Alice").game_state.notes_board (ri, ci) [7] :=
  C10_index_handling.2.2.2 demoRoom "A" (demoPlayer "A" "Alice") (-1) (-2) [7]
    rfl (by decide) (by decide) (by decide) (by decide)
